import Mathlib

/-!
Verification development for the AI-Media literary-analysis pipeline.

Strings are modelled as `List Char` (JS strings over the inputs in scope are
sequences of characters; surrogate issues play no role here).  Each definition
mirrors one function of the JavaScript source; effectful calls (the LLM
backend) are modelled as explicit function parameters, and platform builtins
(`JSON.parse`, `Array.prototype.sort`, regexes) are modelled by equivalent
executable definitions restricted to the value shapes the program feeds them.
-/

namespace AIMedia

/-- Characters of a string literal, the `List Char` view used throughout. -/
def chars (s : String) : List Char := s.data

/-- JS regex `\s` / `String.prototype.trim` whitespace, restricted to the
ASCII range plus NBSP (the only whitespace occurring in the inputs in scope). -/
def isJsSpace (c : Char) : Bool :=
  c = ' ' || c = '\t' || c = '\n' || c = '\r' ||
  c = Char.ofNat 11 || c = Char.ofNat 12 || c = Char.ofNat 160

/-- `String.prototype.trim`. -/
def jsTrim (t : List Char) : List Char :=
  ((t.dropWhile isJsSpace).reverse.dropWhile isJsSpace).reverse

/-- `estimateTokenCount` (textProcessor.js): `Math.ceil(text.length / 4)`. -/
def estimateTokenCount (t : List Char) : Nat := (t.length + 3) / 4

/-- Index of the last newline of a list, if any. -/
def lastNewlineIdx : List Char → Option Nat
  | [] => none
  | c :: rest =>
    match lastNewlineIdx rest with
    | some j => some (j + 1)
    | none => if c = '\n' then some 0 else none

/-- Worker for `splitBlankLines`: single pass over the text; the first
argument counts characters still to be skipped because they belong to an
already recognised separator match. -/
def sblGo : Nat → List Char → List Char → List (List Char)
  | k + 1, acc, _ :: rest => sblGo k acc rest
  | 0, acc, c :: rest =>
    if c = '\n' then
      match lastNewlineIdx (rest.takeWhile isJsSpace) with
      | some j => acc.reverse :: sblGo (j + 1) [] rest
      | none => sblGo 0 (c :: acc) rest
    else sblGo 0 (c :: acc) rest
  | _, acc, [] => [acc.reverse]

/-- `text.split(/\n\s*\n/)` of `chunkText`: a separator is a newline, a
greedy run of whitespace, and a final newline (the greedy `\s*` backtracks to
the last newline of the run). -/
def splitBlankLines (t : List Char) : List (List Char) := sblGo 0 [] t

/-- Sentence terminators of the regex `[^.!?]+[.!?]+`. -/
def isSentTerm (c : Char) : Bool := c = '.' || c = '!' || c = '?'

/-- Worker for `matchSentences` (skip-counter single pass, as in `sblGo`). -/
def msGo : Nat → List Char → List (List Char)
  | k + 1, _ :: rest => msGo k rest
  | 0, [] => []
  | 0, c :: rest =>
    if isSentTerm c then msGo 0 rest
    else
      let body := (c :: rest).takeWhile (fun x => !(isSentTerm x))
      let terms := ((c :: rest).drop body.length).takeWhile isSentTerm
      if terms.isEmpty then []
      else (body ++ terms) :: msGo (body.length + terms.length - 1) rest
  | _, [] => []

/-- `paragraph.match(/[^.!?]+[.!?]+/g)`: successive maximal runs of
non-terminators followed by a maximal run of terminators.  Text after the
last terminator (and any leading terminator run) belongs to no match. -/
def matchSentences (t : List Char) : List (List Char) := msGo 0 t

/-- `paragraph.match(...) || [paragraph]`. -/
def sentencesOf (p : List Char) : List (List Char) :=
  let m := matchSentences p
  if m.isEmpty then [p] else m

/-- Case-insensitive literal prefix test (pattern given in lower case). -/
def ciPrefix : List Char → List Char → Bool
  | [], _ => true
  | _ :: _, [] => false
  | p :: ps, c :: cs => p = c.toLower && ciPrefix ps cs

/-- `parseInt(digits, 10)` on a run of decimal digits. -/
def digitsVal (ds : List Char) : Nat := ds.foldl (fun n c => n * 10 + (c.toNat - 48)) 0

/-- Parse `\s*(\d+)` at the front of `t`; returns the number and the count of
characters consumed. -/
def parseNumTail (t : List Char) : Option (Nat × Nat) :=
  let ws := t.takeWhile isJsSpace
  let t2 := t.drop ws.length
  let ds := t2.takeWhile (fun c => c.isDigit)
  if ds.isEmpty then none else some (digitsVal ds, ws.length + ds.length)

/-- Regex alternative `\[Page\s*(\d+)\]` (case-insensitive); returns page
number and match length. -/
def tryMarkerBracket (s : List Char) : Option (Nat × Nat) :=
  match s with
  | '[' :: t =>
    if ciPrefix (chars "page") t then
      match parseNumTail (t.drop 4) with
      | some (n, k) =>
        match t.drop (4 + k) with
        | ']' :: _ => some (n, 1 + 4 + k + 1)
        | _ => none
      | none => none
    else none
  | _ => none

/-- Regex alternative `\(page\s*(\d+)\)` (case-insensitive). -/
def tryMarkerParenPage (s : List Char) : Option (Nat × Nat) :=
  match s with
  | '(' :: t =>
    if ciPrefix (chars "page") t then
      match parseNumTail (t.drop 4) with
      | some (n, k) =>
        match t.drop (4 + k) with
        | ')' :: _ => some (n, 1 + 4 + k + 1)
        | _ => none
      | none => none
    else none
  | _ => none

/-- Regex alternative `\(pg\.?\s*(\d+)\)` (case-insensitive); the optional
dot is tried greedily first, then without. -/
def tryMarkerParenPg (s : List Char) : Option (Nat × Nat) :=
  match s with
  | '(' :: t =>
    if ciPrefix (chars "pg") t then
      let t2 := t.drop 2
      let withDot :=
        match t2 with
        | '.' :: t3 =>
          match parseNumTail t3 with
          | some (n, k) =>
            match t3.drop k with
            | ')' :: _ => some (n, 1 + 2 + 1 + k + 1)
            | _ => none
          | none => none
        | _ => none
      match withDot with
      | some r => some r
      | none =>
        match parseNumTail t2 with
        | some (n, k) =>
          match t2.drop k with
          | ')' :: _ => some (n, 1 + 2 + k + 1)
          | _ => none
        | none => none
    else none
  | _ => none

/-- Regex alternative `Page\s*(\d+)` (case-insensitive, no delimiter). -/
def tryMarkerPage (s : List Char) : Option (Nat × Nat) :=
  if ciPrefix (chars "page") s then
    match parseNumTail (s.drop 4) with
    | some (n, k) => some (n, 4 + k)
    | none => none
  else none

/-- One attempt of the page-marker regex at the current position,
alternatives in source order. -/
def tryMarker (s : List Char) : Option (Nat × Nat) :=
  match tryMarkerBracket s with
  | some r => some r
  | none =>
    match tryMarkerParenPage s with
    | some r => some r
    | none =>
      match tryMarkerParenPg s with
      | some r => some r
      | none => tryMarkerPage s

/-- Worker for `extractPageMarkers`: global regex scan; the skip counter
steps over the characters of an already recognised match. -/
def pmGo : Nat → Nat → List Char → List (Nat × Nat)
  | k + 1, i, _ :: rest => pmGo k (i + 1) rest
  | 0, i, c :: rest =>
    match tryMarker (c :: rest) with
    | some (n, len) => (i, n) :: pmGo (len - 1) (i + 1) rest
    | none => pmGo 0 (i + 1) rest
  | _, _, [] => []

/-- `extractPageMarkers` (textProcessor.js): every match of the page-marker
regex with its character position and parsed page number. -/
def extractPageMarkers (t : List Char) : List (Nat × Nat) := pmGo 0 0 t

/-- The scan-with-break of `findPageBoundaries`: last marker whose position
is at or before `pos`, stopping at the first marker beyond it. -/
def scanPageMarkers (pos : Nat) : List (Nat × Nat) → Option Nat → Option Nat
  | [], acc => acc
  | (p, n) :: rest, acc => if p ≤ pos then scanPageMarkers pos rest (some n) else acc

/-- `findPageBoundaries` (textProcessor.js). -/
def findPageBoundaries (startPos endPos : Nat) (markers : List (Nat × Nat)) :
    Option Nat × Option Nat :=
  (scanPageMarkers startPos markers none, scanPageMarkers endPos markers none)

/-- Element of `ChunkAnalysis.characters`: `models.js` (src/unnamed/part_002,
line 655) only initializes the array empty and fixes no element schema, so the
shape (name, description, role) is taken from the analysis prompt's JSON
format in `analysisService.js` — exactly the fields `aggregateCharacters`
reads.  A character extracted from one chunk. -/
structure CharacterMention where
  name : List Char
  description : List Char
  role : List Char
deriving DecidableEq, Repr

/-- Element of `ChunkAnalysis.events` (array initialized empty in `models.js`,
no element schema there; shape per the analysis prompt: description,
importance).  An event extracted from one chunk. -/
structure EventMention where
  description : List Char
  importance : List Char
deriving DecidableEq, Repr

/-- Element of `ChunkAnalysis.themes` (array initialized empty in `models.js`,
no element schema there; shape per the analysis prompt: name, description —
the fields `aggregateThemes` reads).  A theme extracted from one chunk. -/
structure ThemeMention where
  name : List Char
  description : List Char
deriving DecidableEq, Repr

/-- Element of `ChunkAnalysis.settings` (array initialized empty in
`models.js`, no element schema there; shape per the analysis prompt: location,
description — the fields `aggregateSettings` reads).  A setting extracted from
one chunk. -/
structure SettingMention where
  location : List Char
  description : List Char
deriving DecidableEq, Repr

/-- Translated from `class ChunkAnalysis` in `models.js` (src/unnamed/part_002,
lines 652–670): `chunkId` plus the extraction lists, each defaulting to empty
as in the constructor; `plotDevelopment` (null until filled) is carried as a
string, empty for null.  The constructor's `style`, `keyQuotes`, `timestamp`
and `rawLlmOutput` slots are read by no claim in scope and are omitted. -/
structure ChunkAnalysis where
  chunkId : Nat
  characters : List CharacterMention := []
  events : List EventMention := []
  themes : List ThemeMention := []
  settings : List SettingMention := []
  plotDevelopment : List Char := []
deriving DecidableEq, Repr

/-- Translated from `class TextChunk` in `models.js` (src/unnamed/part_002,
lines 634–647), with the `metadata` object flattened into the record:
`chunkText` passes all four metadata fields, and the constructor's
`...metadata` spread stores those raw values over the `|| null` / `|| 0`
defaults.  The numeric chunk counter stands for the `chunk-<n>` id string;
`analysis` starts `null` (`none`) and is filled later by `analyzeBook`. -/
structure TextChunk where
  id : Nat
  text : List Char
  position : Nat
  tokenCount : Nat
  pageStart : Option Nat
  pageEnd : Option Nat
  analysis : Option ChunkAnalysis := none
deriving DecidableEq, Repr

/-- The `'\n\n'` separator inserted between accumulated paragraphs and by
the minTokens merge rule. -/
def nl2 : List Char := ['\n', '\n']

/-- The merge arm of `createChunk`: append the content to the last chunk's
text and re-estimate its token count. -/
def updateLastChunk (content : List Char) : List TextChunk → List TextChunk
  | [] => []
  | [c] => [{ c with
      text := c.text ++ nl2 ++ content,
      tokenCount := estimateTokenCount (c.text ++ nl2 ++ content) }]
  | c :: rest => c :: updateLastChunk content rest

/-- `createChunk` closure of `chunkText`: merge a below-`minTokens` chunk
into the previous chunk (unless it is the first), otherwise emit a new chunk
whose page range is looked up at the recorded positions.  Note the source
passes the same token-unit `position` for both boundaries. -/
def createChunk (minTokens : Nat) (markers : List (Nat × Nat))
    (chunks : List TextChunk) (chunkId position : Nat)
    (content : List Char) (endPos : Nat) : List TextChunk × Nat :=
  let tk := estimateTokenCount content
  if tk < minTokens ∧ chunks ≠ [] then (updateLastChunk content chunks, chunkId)
  else
    let pg := findPageBoundaries position endPos markers
    (chunks ++ [{ id := chunkId, text := content, position := position,
                  tokenCount := tk, pageStart := pg.1, pageEnd := pg.2,
                  analysis := none }],
     chunkId + 1)

/-- Mutable chunker state of `chunkText` (`chunks`, `chunkId`, `position`). -/
structure ChunkerState where
  chunks : List TextChunk
  chunkId : Nat
  position : Nat
deriving DecidableEq, Repr

/-- The inner sentence loop of `chunkText` for a paragraph that alone
exceeds `maxTokens`, including its trailing flush. -/
def sentenceLoopSt (maxT minT : Nat) (markers : List (Nat × Nat)) :
    List (List Char) → ChunkerState → List Char → ChunkerState
  | [], st, sc =>
    if sc ≠ [] then
      let r := createChunk minT markers st.chunks st.chunkId st.position sc st.position
      ⟨r.1, r.2, st.position + estimateTokenCount sc⟩
    else st
  | s :: rest, st, sc =>
    let sTok := estimateTokenCount s
    let scTok := estimateTokenCount sc
    if sc ≠ [] ∧ scTok + sTok > maxT then
      let r := createChunk minT markers st.chunks st.chunkId st.position sc st.position
      sentenceLoopSt maxT minT markers rest ⟨r.1, r.2, st.position + scTok⟩ s
    else sentenceLoopSt maxT minT markers rest st (sc ++ (if sc ≠ [] then [' '] else []) ++ s)

/-- The paragraph loop of `chunkText`; returns the state and the pending
`currentChunk` buffer. -/
def chunkLoop (maxT minT : Nat) (markers : List (Nat × Nat)) :
    List (List Char) → ChunkerState → List Char → ChunkerState × List Char
  | [], st, cur => (st, cur)
  | p0 :: rest, st, cur =>
    let paragraph := jsTrim p0
    if paragraph = [] then chunkLoop maxT minT markers rest st cur
    else
      let pTok := estimateTokenCount paragraph
      let cTok := estimateTokenCount cur
      if cur ≠ [] ∧ cTok + pTok > maxT then
        let r := createChunk minT markers st.chunks st.chunkId st.position cur st.position
        chunkLoop maxT minT markers rest ⟨r.1, r.2, st.position + cTok⟩ paragraph
      else if pTok > maxT then
        let st1 :=
          if cur ≠ [] then
            let r := createChunk minT markers st.chunks st.chunkId st.position cur st.position
            ChunkerState.mk r.1 r.2 (st.position + cTok)
          else st
        let st2 := sentenceLoopSt maxT minT markers (sentencesOf paragraph) st1 []
        chunkLoop maxT minT markers rest st2 []
      else
        chunkLoop maxT minT markers rest st (cur ++ (if cur ≠ [] then nl2 else []) ++ paragraph)

/-- Options of `chunkText`; `preserveParagraphs` is destructured by the
source but never used. -/
structure ChunkOptions where
  maxTokens : Nat := 1000
  minTokens : Nat := 100
  preserveParagraphs : Bool := true
deriving DecidableEq, Repr

/-- `chunkText` (textProcessor.js): split on blank lines, accumulate
paragraphs against `maxTokens`, sentence-split oversized paragraphs arriving
on an empty buffer, merge below-`minTokens` flushes into the previous chunk,
and flush the trailing buffer. -/
def chunkText (text : List Char) (opts : ChunkOptions) : List TextChunk :=
  let paragraphs := splitBlankLines text
  let markers := extractPageMarkers text
  let r := chunkLoop opts.maxTokens opts.minTokens markers paragraphs ⟨[], 0, 0⟩ []
  let st := r.1
  let cur := r.2
  if cur ≠ [] then
    (createChunk opts.minTokens markers st.chunks st.chunkId st.position cur st.position).1
  else st.chunks

/-- Trimmed non-empty paragraphs of a text, the sequence the chunker
distributes over its chunks. -/
def paraSeq (text : List Char) : List (List Char) :=
  ((splitBlankLines text).map jsTrim).filter (fun p => p ≠ [])

/-- Chunk texts joined back with the canonical paragraph separator. -/
def joinSep : List (List Char) → List Char
  | [] => []
  | [t] => t
  | t :: ts => t ++ nl2 ++ joinSep ts

/-! ### Reconstruction and token-bound lemmas for the chunker -/

/-- The pending `currentChunk` buffer viewed as a (possibly empty) extra
chunk text. -/
def pend (cur : List Char) : List (List Char) := if cur = [] then [] else [cur]

/-- The per-chunk facts maintained by the bound invariant: the recorded
estimate is the estimate of the text and stays within one token of
`maxTokens`. -/
def chunkBounded (maxT : Nat) (c : TextChunk) : Prop :=
  c.tokenCount ≤ maxT + 1 ∧ c.tokenCount = estimateTokenCount c.text

/-! ### Reasoning-span stripping (`removeThinkingContent` / `extractFinalAnswer`) -/

/-- The reasoning-open marker. -/
def thinkOpen : List Char := chars "<think>"

/-- The reasoning-close marker. -/
def thinkClose : List Char := chars "</think>"

/-- `String.prototype.indexOf`: position of the first occurrence of `pat`. -/
def findOcc (pat : List Char) : List Char → Option Nat
  | [] => if pat.isEmpty then some 0 else none
  | c :: rest =>
    if pat.isPrefixOf (c :: rest) then some 0
    else (findOcc pat rest).map (· + 1)

/-- `String.prototype.includes`. -/
def occursIn (pat s : List Char) : Bool := (findOcc pat s).isSome

/-- Worker for the global regex replace `/<think>[\s\S]*?<\/think>/g` with
the empty string: the engine scans left to right; at an open marker it looks
for the nearest close marker, deletes the span, and resumes after it; an
open marker without a close is left in place (the remainder is kept
verbatim).  The skip counter steps over the deleted span. -/
def stripGo (openT closeT : List Char) : Nat → List Char → List Char
  | k + 1, _ :: rest => stripGo openT closeT k rest
  | 0, c :: rest =>
    if openT.isPrefixOf (c :: rest) then
      match findOcc closeT ((c :: rest).drop openT.length) with
      | some j => stripGo openT closeT (openT.length + j + closeT.length - 1) rest
      | none => c :: rest
    else c :: stripGo openT closeT 0 rest
  | _, [] => []

/-- `removeThinkingContent` (analysisService.js): `if (!text) return text`
then the global replace of `<think>...</think>` spans by nothing. -/
def removeThinkingContent (t : List Char) : List Char :=
  if t = [] then t else stripGo thinkOpen thinkClose 0 t

/-- `extractFinalAnswer` (server.js): the same global replace, followed by
`.trim()`. -/
def extractFinalAnswer (t : List Char) : List Char :=
  jsTrim (stripGo thinkOpen thinkClose 0 t)

/-! ### Streaming relay of `/api/rewrite-stream` (server.js) -/

/-- Worker for `jsSplit` (skip-counter single pass over the text, as in
`sblGo`); assumes a non-empty pattern, which holds for every split the
source performs. -/
def splitGo (pat : List Char) : Nat → List Char → List Char → List (List Char)
  | k + 1, acc, _ :: rest => splitGo pat k acc rest
  | 0, acc, c :: rest =>
    if pat.isPrefixOf (c :: rest) then
      acc.reverse :: splitGo pat (pat.length - 1) [] rest
    else splitGo pat 0 (c :: acc) rest
  | _, acc, [] => [acc.reverse]

/-- `String.prototype.split` on a literal pattern: the pieces between
successive non-overlapping left-to-right occurrences. -/
def jsSplit (pat s : List Char) : List (List Char) := splitGo pat 0 [] s

/-- The in-stream thinking-tag filter applied to one fragment
(server.js, `/api/rewrite-stream`): an open marker flips the flag on and
truncates the fragment to the text before the marker; a close marker found
in the (possibly truncated) fragment flips the flag off and keeps
`split('</think>')[1] || ''`. -/
def tagFilter (inside : Bool) (token : List Char) : Bool × List Char :=
  let st1 :=
    if occursIn thinkOpen token then (true, (jsSplit thinkOpen token).headD [])
    else (inside, token)
  if occursIn thinkClose st1.2 then (false, (jsSplit thinkClose st1.2).getD 1 [])
  else st1

/-- Filtering and forwarding of one `data.response` token: the token is
forwarded only when the flag is off and the filtered text is non-empty. -/
def processRespToken (inside : Bool) (token : List Char) : Bool × Option (List Char) :=
  let f := tagFilter inside token
  (f.1, if f.1 = false ∧ f.2 ≠ [] then some f.2 else none)

/-- A JSON value as occurring in the generation backend's flat frames. -/
inductive JVal where
  | jstr (s : List Char)
  | jbool (b : Bool)
  | jnum (n : Nat)
  | jnull
deriving DecidableEq, Repr

/-- The double-quote character. -/
def qc : Char := Char.ofNat 34

/-- The opening curly-brace character. -/
def obr : Char := Char.ofNat 123

/-- The closing curly-brace character. -/
def cbr : Char := Char.ofNat 125

/-- The backslash character. -/
def bsl : Char := Char.ofNat 92

/-- Parse a JSON string literal (escape-free; a backslash makes the parse
fail, which never happens for the frames in scope). -/
def parseJString (s : List Char) : Option (List Char × List Char) :=
  match s with
  | c :: rest =>
    if c = qc then
      let content := rest.takeWhile (fun x => x ≠ qc && x ≠ bsl)
      match rest.drop content.length with
      | d :: rest2 => if d = qc then some (content, rest2) else none
      | [] => none
    else none
  | [] => none

/-- Parse a JSON scalar value (string, boolean, null, or non-negative
integer — the shapes the backend's frames carry). -/
def parseJVal (s : List Char) : Option (JVal × List Char) :=
  match s with
  | c :: _ =>
    if c = qc then (parseJString s).map (fun r => (JVal.jstr r.1, r.2))
    else if (chars "true").isPrefixOf s then some (JVal.jbool true, s.drop 4)
    else if (chars "false").isPrefixOf s then some (JVal.jbool false, s.drop 5)
    else if (chars "null").isPrefixOf s then some (JVal.jnull, s.drop 4)
    else
      let ds := s.takeWhile (fun x => x.isDigit)
      if ds.isEmpty then none else some (JVal.jnum (digitsVal ds), s.drop ds.length)
  | [] => none

/-- Parse the members of a JSON object after its opening brace (fuelled;
the fuel is sized from the input so it never runs out on real input). -/
def parseMembers (fuel : Nat) (s : List Char) : Option (List (List Char × JVal) × List Char) :=
  match fuel with
  | 0 => none
  | fuel + 1 =>
    match parseJString (s.dropWhile isJsSpace) with
    | none => none
    | some (key, r1) =>
      match r1.dropWhile isJsSpace with
      | c :: r3 =>
        if c = ':' then
          match parseJVal (r3.dropWhile isJsSpace) with
          | none => none
          | some (v, r4) =>
            match r4.dropWhile isJsSpace with
            | d :: r6 =>
              if d = ',' then
                (parseMembers fuel r6).map (fun r => ((key, v) :: r.1, r.2))
              else if d = cbr then some ([(key, v)], r6)
              else none
            | [] => none
        else none
      | [] => none

/-- `JSON.parse` restricted to one flat object of scalar fields — the shape
of the generation backend's newline-delimited frames; anything else fails
(as the handler's try/catch expects). -/
def parseFrame (s : List Char) : Option (List (List Char × JVal)) :=
  match s.dropWhile isJsSpace with
  | c :: rest =>
    if c = obr then
      match rest.dropWhile isJsSpace with
      | d :: _ =>
        if d = cbr ∧ ((rest.dropWhile isJsSpace).drop 1).dropWhile isJsSpace = [] then
          some []
        else
          match parseMembers (rest.length + 1) rest with
          | some (ms, r) => if r.dropWhile isJsSpace = [] then some ms else none
          | none => none
      | [] => none
    else none
  | [] => none

/-- First value stored under a key of a parsed flat frame (the frames in
scope have no duplicate keys). -/
def lookupField (key : List Char) : List (List Char × JVal) → Option JVal
  | [] => none
  | (k, v) :: rest => if k = key then some v else lookupField key rest

/-- The `'}\n'` separator the handler scans the buffer for. -/
def frameSep : List Char := [cbr, '\n']

/-- The literal `"response"` (with quotes) tested by the fallback branch. -/
def respQuoted : List Char := [qc] ++ chars "response" ++ [qc]

/-- The handler's per-stream mutable state: the thinking flag and the
partial-line buffer. -/
structure RelayState where
  inside : Bool
  buffer : List Char
deriving DecidableEq, Repr

/-- Processing of one complete `{...}`-terminated line of the buffer: parse
it, mark that a JSON object was found, and forward a truthy string
`response` through the thinking filter.  A non-string `response` is never
sent by the backend in scope and forwards nothing. -/
def stepFrame (acc : Bool × Bool × List (List Char)) (frame : List Char) :
    Bool × Bool × List (List Char) :=
  match parseFrame frame with
  | none => acc
  | some fields =>
    match lookupField (chars "response") fields with
    | some (JVal.jstr t) =>
      if t ≠ [] then
        let r := processRespToken acc.1 t
        (r.1, true, acc.2.2 ++ (match r.2 with | some o => [o] | none => []))
      else (acc.1, true, acc.2.2)
    | _ => (acc.1, true, acc.2.2)

/-- The `data` handler of `/api/rewrite-stream` for one transport chunk:
append to the buffer, extract and process every complete `'}\n'`-terminated
object, keep the trailing partial line, and — when no JSON object was found,
the chunk has visible text, and it does not contain `"response"` — forward
the raw chunk text through the thinking filter as a fallback. -/
def processDataChunk (st : RelayState) (chunkStr : List Char) :
    RelayState × List (List Char) :=
  let buffer := st.buffer ++ chunkStr
  let parts := jsSplit frameSep buffer
  let frames := parts.dropLast.map (fun p => p ++ [cbr])
  let newBuffer := parts.getLastD []
  let folded := frames.foldl stepFrame (st.inside, false, [])
  if folded.2.1 = false ∧ jsTrim chunkStr ≠ [] ∧ occursIn respQuoted chunkStr = false then
    let f := tagFilter folded.1 chunkStr
    if f.1 = false ∧ jsTrim f.2 ≠ [] then (⟨f.1, newBuffer⟩, folded.2.2 ++ [f.2])
    else (⟨f.1, newBuffer⟩, folded.2.2)
  else (⟨folded.1, newBuffer⟩, folded.2.2)

/-- A whole sequence of transport chunks through the handler, collecting
every forwarded token text in order. -/
def runRelay (events : List (List Char)) : RelayState × List (List Char) :=
  events.foldl
    (fun acc ev =>
      let r := processDataChunk acc.1 ev
      (r.1, acc.2 ++ r.2))
    (⟨false, []⟩, [])

/-! ### Entity aggregation of the synthesis service -/

/-- `String.prototype.toLowerCase` (ASCII range, as the names in scope). -/
def toLowerList (t : List Char) : List Char := t.map Char.toLower

/-- `replace(/\s+/g, ' ')`: collapse each whitespace run to one space. -/
def collapseWs : List Char → List Char
  | [] => []
  | [c] => [if isJsSpace c then ' ' else c]
  | c1 :: c2 :: rest =>
    if isJsSpace c1 ∧ isJsSpace c2 then collapseWs (c2 :: rest)
    else (if isJsSpace c1 then ' ' else c1) :: collapseWs (c2 :: rest)

/-- The punctuation class stripped by `normalizeCharacterName`. -/
def isStrippedPunct (c : Char) : Bool :=
  c = '.' || c = ',' || c = '/' || c = '#' || c = '!' || c = '$' || c = '%' ||
  c = '^' || c = '&' || c = '*' || c = ';' || c = ':' || c = obr || c = cbr ||
  c = '=' || c = '-' || c = '_' || c = Char.ofNat 96 || c = '~' || c = '(' || c = ')'

/-- `normalizeCharacterName` (synthesis service): lowercase, collapse
whitespace, strip punctuation, trim. -/
def normalizeCharacterName (name : List Char) : List Char :=
  jsTrim ((collapseWs (toLowerList name)).filter (fun c => !(isStrippedPunct c)))

/-- Merged character entry of the global analysis. -/
structure CharEntry where
  name : List Char
  description : List Char
  role : List Char
  appearances : Nat
  pages : List Nat
deriving DecidableEq, Repr

/-- Merged theme entry of the global analysis. -/
structure ThemeEntry where
  name : List Char
  description : List Char
  occurrences : Nat
  pages : List Nat
deriving DecidableEq, Repr

/-- Merged setting entry of the global analysis. -/
structure SettingEntry where
  location : List Char
  description : List Char
  occurrences : Nat
  pages : List Nat
deriving DecidableEq, Repr

/-- The description/role merge on key collision: concatenate with the
separator unless the new text is empty, equal to, or a substring of the
existing one. -/
def mergeDescription (sep newText oldText : List Char) : List Char :=
  if newText ≠ [] ∧ newText ≠ oldText ∧ occursIn newText oldText = false then
    oldText ++ sep ++ newText
  else oldText

/-- Page accumulation on collision: add `pageStart` when truthy and not yet
recorded. -/
def addPage (pg : Option Nat) (pages : List Nat) : List Nat :=
  match pg with
  | some p => if p ≠ 0 then (if pages.contains p then pages else pages ++ [p]) else pages
  | none => pages

/-- Initial pages of a fresh entry (`pageStart ? [pageStart] : []`). -/
def initPages (pg : Option Nat) : List Nat :=
  match pg with
  | some p => if p ≠ 0 then [p] else []
  | none => []

/-- First value stored under a key of the insertion-ordered map. -/
def lookupEntry {ε : Type} (key : List Char) : List (List Char × ε) → Option ε
  | [] => none
  | (k, v) :: rest => if k = key then some v else lookupEntry key rest

/-- In-place update of the value stored under a key (JS `Map` keeps the
insertion position of an updated key). -/
def updateEntry {ε : Type} (key : List Char) (f : ε → ε) :
    List (List Char × ε) → List (List Char × ε)
  | [] => []
  | (k, v) :: rest => if k = key then (k, f v) :: rest else (k, v) :: updateEntry key f rest

/-- The shared merge loop of `aggregateCharacters` / `aggregateThemes` /
`aggregateSettings`: for each mention in chunk order, skip falsy names,
normalize the merge key, update the existing entry on collision or append a
fresh one. -/
def aggFold {μ ε : Type} (keyOf : μ → List Char) (valid : μ → Bool)
    (mk : μ → Option Nat → ε) (upd : μ → Option Nat → ε → ε) :
    List (μ × Option Nat) → List (List Char × ε) → List (List Char × ε)
  | [], acc => acc
  | (m, pg) :: rest, acc =>
    if valid m then
      match lookupEntry (keyOf m) acc with
      | some _ => aggFold keyOf valid mk upd rest (updateEntry (keyOf m) (upd m pg) acc)
      | none => aggFold keyOf valid mk upd rest (acc ++ [(keyOf m, mk m pg)])
    else aggFold keyOf valid mk upd rest acc

/-- Stable insertion into a descending-sorted list (equal counts keep their
existing order, as the stable `Array.prototype.sort` comparator does). -/
def insertDesc {ε : Type} (key : ε → Nat) (e : ε) : List ε → List ε
  | [] => [e]
  | x :: xs => if key e > key x then e :: x :: xs else x :: insertDesc key e xs

/-- `Array.prototype.sort((a, b) => b.count - a.count)`: a stable
descending sort by the count. -/
def sortByDesc {ε : Type} (key : ε → Nat) (l : List ε) : List ε :=
  l.foldl (fun acc e => insertDesc key e acc) []

/-- Character mentions of all chunks in order, tagged with the chunk's
`pageStart`. -/
def charMentions (chunks : List TextChunk) : List (CharacterMention × Option Nat) :=
  chunks.flatMap (fun c =>
    match c.analysis with
    | some a => a.characters.map (fun m => (m, c.pageStart))
    | none => [])

/-- Theme mentions of all chunks in order. -/
def themeMentions (chunks : List TextChunk) : List (ThemeMention × Option Nat) :=
  chunks.flatMap (fun c =>
    match c.analysis with
    | some a => a.themes.map (fun m => (m, c.pageStart))
    | none => [])

/-- Setting mentions of all chunks in order. -/
def settingMentions (chunks : List TextChunk) : List (SettingMention × Option Nat) :=
  chunks.flatMap (fun c =>
    match c.analysis with
    | some a => a.settings.map (fun m => (m, c.pageStart))
    | none => [])

/-- Collision update of a character entry. -/
def updCharEntry (m : CharacterMention) (pg : Option Nat) (e : CharEntry) : CharEntry :=
  { e with
    description := mergeDescription (chars ". ") m.description e.description,
    role := mergeDescription (chars "; ") m.role e.role,
    appearances := (if e.appearances = 0 then 1 else e.appearances) + 1,
    pages := addPage pg e.pages }

/-- Fresh character entry. -/
def mkCharEntry (m : CharacterMention) (pg : Option Nat) : CharEntry :=
  { name := m.name, description := m.description, role := m.role,
    appearances := 1, pages := initPages pg }

/-- `aggregateCharacters` (synthesis service): merge by
`normalizeCharacterName`, sort descending by appearances, and split main /
supporting at `max(3, ceil(20%))` (the float `Math.ceil(len * 0.2)` is
modelled as the exact ceiling division). -/
def aggregateCharacters (chunks : List TextChunk) :
    List CharEntry × List CharEntry × List CharEntry :=
  let entries := aggFold (fun m => normalizeCharacterName m.name)
    (fun m => m.name ≠ []) mkCharEntry updCharEntry (charMentions chunks) []
  let characters := sortByDesc (fun e => e.appearances) (entries.map (fun kv => kv.2))
  let cutoff := max 3 ((characters.length + 4) / 5)
  (characters, characters.take cutoff, characters.drop cutoff)

/-- Collision update of a theme entry. -/
def updThemeEntry (m : ThemeMention) (pg : Option Nat) (e : ThemeEntry) : ThemeEntry :=
  { e with
    description := mergeDescription (chars ". ") m.description e.description,
    occurrences := (if e.occurrences = 0 then 1 else e.occurrences) + 1,
    pages := addPage pg e.pages }

/-- Fresh theme entry. -/
def mkThemeEntry (m : ThemeMention) (pg : Option Nat) : ThemeEntry :=
  { name := m.name, description := m.description, occurrences := 1, pages := initPages pg }

/-- `aggregateThemes` (synthesis service): note the merge key is only
`name.toLowerCase().trim()` — no whitespace collapsing and no punctuation
stripping. -/
def aggregateThemes (chunks : List TextChunk) : List ThemeEntry :=
  let entries := aggFold (fun m => jsTrim (toLowerList m.name))
    (fun m => m.name ≠ []) mkThemeEntry updThemeEntry (themeMentions chunks) []
  sortByDesc (fun e => e.occurrences) (entries.map (fun kv => kv.2))

/-- Collision update of a setting entry. -/
def updSettingEntry (m : SettingMention) (pg : Option Nat) (e : SettingEntry) : SettingEntry :=
  { e with
    description := mergeDescription (chars ". ") m.description e.description,
    occurrences := (if e.occurrences = 0 then 1 else e.occurrences) + 1,
    pages := addPage pg e.pages }

/-- Fresh setting entry. -/
def mkSettingEntry (m : SettingMention) (pg : Option Nat) : SettingEntry :=
  { location := m.location, description := m.description, occurrences := 1,
    pages := initPages pg }

/-- `aggregateSettings` (synthesis service): the merge key is only
`location.toLowerCase().trim()`, as for themes. -/
def aggregateSettings (chunks : List TextChunk) : List SettingEntry :=
  let entries := aggFold (fun m => jsTrim (toLowerList m.location))
    (fun m => m.location ≠ []) mkSettingEntry updSettingEntry (settingMentions chunks) []
  sortByDesc (fun e => e.occurrences) (entries.map (fun kv => kv.2))

/-- Valid mentions mapping to a given merge key, the multiplicity an entry's
counter should reach. -/
def keyCount {μ : Type} (keyOf : μ → List Char) (valid : μ → Bool) (k : List Char) :
    List (μ × Option Nat) → Nat
  | [] => 0
  | (m, _) :: rest =>
    (if valid m ∧ keyOf m = k then 1 else 0) + keyCount keyOf valid k rest

/-- Counter recorded under a key of the insertion-ordered map (0 when the
key is absent). -/
def cntAt {ε : Type} (cnt : ε → Nat) (k : List Char) (acc : List (List Char × ε)) : Nat :=
  match lookupEntry k acc with
  | some e => cnt e
  | none => 0

/-- A bare chunk used by concrete instantiations. -/
def blankChunk (n : Nat) : TextChunk :=
  { id := n, text := [], position := 0, tokenCount := 0, pageStart := none,
    pageEnd := none, analysis := none }

/-- A chunk whose analysis extracted a single theme of the given name. -/
def themeChunk (n : Nat) (nm : String) : TextChunk :=
  { blankChunk n with
    analysis := some
      { chunkId := n, themes := [{ name := chars nm, description := [] }] } }

/-- A chunk whose analysis extracted a single character of the given name. -/
def characterChunk (n : Nat) (nm : String) : TextChunk :=
  { blankChunk n with
    analysis := some
      { chunkId := n,
        characters := [{ name := chars nm, description := [], role := [] }] } }

/-! ### Batch chunk analysis (`analyzeChunks`, analysisService.js) -/

/-- One progress-callback invocation of `analyzeChunks` (the chunk id stands
for the `lastAnalyzed` string). -/
structure ProgressEvt where
  current : Nat
  total : Nat
  percentage : Nat
  lastAnalyzed : Nat
deriving DecidableEq, Repr

/-- `Math.round(((i + 1) / total) * 100)` in exact arithmetic. -/
def jsRoundPct (num den : Nat) : Nat := (200 * num + den) / (2 * den)

/-- Worker for `analyzeChunks`: the per-chunk LLM analysis (an awaited
network call in the source) is abstracted as the function `f`, with `none`
standing for a thrown error. -/
def analyzeChunksGo (f : TextChunk → Option ChunkAnalysis) (total : Nat) :
    Nat → List TextChunk → List ChunkAnalysis × List ProgressEvt
  | _, [] => ([], [])
  | i, c :: rest =>
    match f c with
    | some a =>
      let r := analyzeChunksGo f total (i + 1) rest
      (a :: r.1,
        { current := i + 1, total := total, percentage := jsRoundPct (i + 1) total,
          lastAnalyzed := c.id } :: r.2)
    | none => analyzeChunksGo f total (i + 1) rest

/-- `analyzeChunks` (analysisService.js): analyze chunks in order; on a
successful chunk push the analysis and invoke the progress callback; on a
thrown error log and continue.  Returns the analyses and the sequence of
progress-callback invocations. -/
def analyzeChunks (f : TextChunk → Option ChunkAnalysis) (chunks : List TextChunk) :
    List ChunkAnalysis × List ProgressEvt :=
  analyzeChunksGo f chunks.length 0 chunks

/-! ### Analysis result retrieval (`getAnalysisResults`, book service) -/

/-- Translated from the `analysisStatus` record initialized by
`class BookAnalysis` in `models.js` (src/unnamed/part_002, lines 707–714):
chunksAnalyzed, totalChunks, startTime, endTime, status and error, with the
ISO-string timestamps the book service assigns abstracted to ticks. -/
structure AnalysisStatusRec where
  status : List Char
  chunksAnalyzed : Nat
  totalChunks : Nat
  startTime : Option Nat
  endTime : Option Nat
  error : Option (List Char)
deriving DecidableEq, Repr

/-- The `bookInfo` record the book service constructs (src/unnamed/part_002,
lines 955–963) and stores via `new BookAnalysis(bookInfo)`, reduced to id,
title and author: `getAnalysisResults` returns the record verbatim, so the
omitted fields (path, pageCount, metadata, tableOfContents) are carried
opaquely and affect no theorem. -/
structure BookInfoRec where
  id : List Char
  title : List Char
  author : List Char
deriving DecidableEq, Repr

/-- Translated from the `globalAnalysis` initializer of `class BookAnalysis`
in `models.js` (src/unnamed/part_002, lines 679–706), restricted to the
aggregation fields the claims in scope read (characters, mainCharacters,
supportingCharacters, themes, settings); the record is returned verbatim by
`getAnalysisResults`, so the remaining initializer slots (title, plotSummary,
majorEvents, timeline, style, structure, context, perspectives, keyQuotes)
affect no theorem and are omitted. -/
structure GlobalAnalysisRec where
  characters : List CharEntry
  mainCharacters : List CharEntry
  supportingCharacters : List CharEntry
  themes : List ThemeEntry
  settings : List SettingEntry
deriving DecidableEq, Repr

/-- Translated from `class BookAnalysis` in `models.js` (src/unnamed/part_002,
lines 675–716), one entry of the in-memory per-book registry: bookInfo,
globalAnalysis and analysisStatus; the `chunks` array is read by no claim in
scope (`getAnalysisResults` never touches it) and is omitted. -/
structure BookAnalysisRec where
  bookInfo : BookInfoRec
  globalAnalysis : GlobalAnalysisRec
  analysisStatus : AnalysisStatusRec
deriving DecidableEq, Repr

/-- The status-shaped record `getAnalysisResults` returns (the constant
`success`/`message` strings are presentation and carried by the shape). -/
inductive AnalysisResults where
  | notFound
  | progressR (status : List Char) (current total : Nat) (percentage : Option Nat)
  | failedR (status : List Char) (error : Option (List Char))
  | completedR (status : List Char) (bookInfo : BookInfoRec)
      (analysis : GlobalAnalysisRec) (chunksAnalyzed totalChunks : Nat)
      (startTime endTime : Option Nat)
deriving DecidableEq, Repr

/-- `Math.round((chunksAnalyzed / totalChunks) * 100)`; for
`totalChunks = 0` the JS expression is `NaN`, modelled as `none`. -/
def jsRoundPctOpt (c t : Nat) : Option Nat :=
  if t = 0 then none else some (jsRoundPct c t)

/-- `getAnalysisResults` (book service): `not_found` when the book is
absent, a progress record while pending or in-progress, the error when
failed, and the full book info, analysis and timing stats otherwise. -/
def getAnalysisResults (entry : Option BookAnalysisRec) : AnalysisResults :=
  match entry with
  | none => AnalysisResults.notFound
  | some ba =>
    let st := ba.analysisStatus.status
    if st = chars "in-progress" ∨ st = chars "pending" then
      AnalysisResults.progressR st ba.analysisStatus.chunksAnalyzed
        ba.analysisStatus.totalChunks
        (jsRoundPctOpt ba.analysisStatus.chunksAnalyzed ba.analysisStatus.totalChunks)
    else if st = chars "failed" then
      AnalysisResults.failedR st ba.analysisStatus.error
    else
      AnalysisResults.completedR st ba.bookInfo ba.globalAnalysis
        ba.analysisStatus.chunksAnalyzed ba.analysisStatus.totalChunks
        ba.analysisStatus.startTime ba.analysisStatus.endTime

/-! ### Positional attachment of analyses (`analyzeBook`, book service) -/

/-- The attach loop of `analyzeBook`:
`chunkAnalyses.forEach((analysis, index) => chunks[index].analysis = analysis)` —
analyses are attached to chunks by array index; chunks beyond the analyses
list keep their previous `analysis` slot. -/
def attachAnalyses : List TextChunk → List ChunkAnalysis → List TextChunk
  | [], _ => []
  | cs, [] => cs
  | c :: cs, a :: as => { c with analysis := some a } :: attachAnalyses cs as

/-- A per-chunk analyzer that throws exactly on the chunk with id 0 and
returns an analysis tagged with the chunk's id otherwise. -/
def failFirst : TextChunk → Option ChunkAnalysis :=
  fun c => if c.id = 0 then none else some { chunkId := c.id }

/-- The analysis a successful chunk would receive, tagged with its id. -/
def idAnalysis : TextChunk → ChunkAnalysis := fun c => { chunkId := c.id }

/-! ### Lemmas and claim theorems -/

lemma joinSep_cons_ne (t : List Char) (ts : List (List Char)) (h : ts ≠ []) :
    joinSep (t :: ts) = t ++ nl2 ++ joinSep ts := by
  cases ts with
  | nil => exact absurd rfl h
  | cons a as => rfl

lemma joinSep_append (A B : List (List Char)) :
    joinSep (A ++ B) =
      joinSep A ++ (if A = [] ∨ B = [] then [] else nl2) ++ joinSep B := by
  induction A with
  | nil => simp [joinSep]
  | cons a as ih =>
    cases as with
    | nil =>
      cases B with
      | nil => simp [joinSep]
      | cons b bs =>
        simp only [List.singleton_append, List.cons_ne_nil, or_self, if_false]
        rw [joinSep_cons_ne _ _ (by simp)]
        simp [joinSep]
    | cons a2 as2 =>
      have h1 : (a2 :: as2 : List (List Char)) ++ B ≠ [] := by simp
      rw [List.cons_append, joinSep_cons_ne _ _ h1, ih, joinSep_cons_ne a _ (by simp)]
      by_cases hB : B = []
      · simp [hB]
      · simp [hB, List.append_assoc]

lemma updateLastChunk_ne_nil (content : List Char) (cs : List TextChunk) (h : cs ≠ []) :
    updateLastChunk content cs ≠ [] := by
  cases cs with
  | nil => exact absurd rfl h
  | cons c rest => cases rest <;> simp [updateLastChunk]

lemma updateLastChunk_joinSep (content : List Char) (cs : List TextChunk) (h : cs ≠ []) :
    joinSep ((updateLastChunk content cs).map (fun c => c.text)) =
      joinSep (cs.map (fun c => c.text)) ++ nl2 ++ content := by
  induction cs with
  | nil => exact absurd rfl h
  | cons c rest ih =>
    cases rest with
    | nil => simp [updateLastChunk, joinSep]
    | cons c2 rest2 =>
      have h2 : (c2 :: rest2 : List TextChunk) ≠ [] := by simp
      have h3 : updateLastChunk content (c2 :: rest2) ≠ [] := updateLastChunk_ne_nil _ _ h2
      have h4 : (updateLastChunk content (c2 :: rest2)).map (fun c => c.text) ≠ [] := by
        simpa using h3
      rw [show updateLastChunk content (c :: c2 :: rest2) =
            c :: updateLastChunk content (c2 :: rest2) from rfl]
      rw [List.map_cons, joinSep_cons_ne _ _ h4, ih h2]
      conv_rhs =>
        rw [List.map_cons,
          joinSep_cons_ne _ _ (show (c2 :: rest2).map (fun c => c.text) ≠ [] by simp)]
      simp [List.append_assoc]

lemma createChunk_fst_ne_nil (minT : Nat) (markers : List (Nat × Nat))
    (chunks : List TextChunk) (cid pos : Nat) (content : List Char) (ep : Nat) :
    (createChunk minT markers chunks cid pos content ep).1 ≠ [] := by
  unfold createChunk
  by_cases hc : estimateTokenCount content < minT ∧ chunks ≠ []
  · rw [if_pos hc]
    exact updateLastChunk_ne_nil _ _ hc.2
  · rw [if_neg hc]
    simp

lemma createChunk_joinSep (minT : Nat) (markers : List (Nat × Nat))
    (chunks : List TextChunk) (cid pos : Nat) (content : List Char) (ep : Nat) :
    joinSep (((createChunk minT markers chunks cid pos content ep).1).map (fun c => c.text)) =
      joinSep (chunks.map (fun c => c.text) ++ [content]) := by
  unfold createChunk
  by_cases hc : estimateTokenCount content < minT ∧ chunks ≠ []
  · rw [if_pos hc, updateLastChunk_joinSep _ _ hc.2, joinSep_append]
    have h1 : chunks.map (fun c => c.text) ≠ [] := by simpa using hc.2
    simp [h1, joinSep]
  · rw [if_neg hc]
    simp [joinSep]

lemma createChunk_joinSep_ctx (minT : Nat) (markers : List (Nat × Nat))
    (chunks : List TextChunk) (cid pos : Nat) (content : List Char) (ep : Nat)
    (X : List (List Char)) :
    joinSep (((createChunk minT markers chunks cid pos content ep).1).map (fun c => c.text) ++ X) =
      joinSep (chunks.map (fun c => c.text) ++ [content] ++ X) := by
  have h1 : ((createChunk minT markers chunks cid pos content ep).1).map (fun c => c.text) ≠ [] := by
    simpa using createChunk_fst_ne_nil minT markers chunks cid pos content ep
  have h2 : chunks.map (fun c => c.text) ++ [content] ≠ [] := by simp
  rw [joinSep_append, joinSep_append, createChunk_joinSep]
  simp [h1]

lemma joinSep_fuse_head (Y : List (List Char)) (a b : List Char) :
    joinSep ([a ++ nl2 ++ b] ++ Y) = joinSep ([a] ++ ([b] ++ Y)) := by
  cases Y with
  | nil => simp [joinSep, List.append_assoc]
  | cons y ys =>
    rw [show ([a ++ nl2 ++ b] : List (List Char)) ++ (y :: ys) =
        (a ++ nl2 ++ b) :: (y :: ys) from rfl]
    rw [joinSep_cons_ne _ _ (by simp)]
    rw [show ([a] : List (List Char)) ++ ([b] ++ (y :: ys)) = a :: b :: y :: ys from rfl]
    rw [joinSep_cons_ne a _ (by simp), joinSep_cons_ne b _ (by simp)]
    simp [List.append_assoc]

lemma joinSep_fuse (X Y : List (List Char)) (a b : List Char) :
    joinSep (X ++ ([a ++ nl2 ++ b] ++ Y)) = joinSep (X ++ ([a] ++ ([b] ++ Y))) := by
  rw [joinSep_append X, joinSep_append X, joinSep_fuse_head]
  simp

lemma chunkLoop_joinSep (maxT minT : Nat) (markers : List (Nat × Nat))
    (ps : List (List Char)) :
    ∀ st cur, (∀ p ∈ ps, jsTrim p ≠ [] → estimateTokenCount (jsTrim p) ≤ maxT) →
    joinSep (((chunkLoop maxT minT markers ps st cur).1).chunks.map (fun c => c.text) ++
        pend (chunkLoop maxT minT markers ps st cur).2) =
      joinSep (st.chunks.map (fun c => c.text) ++ pend cur ++
        (ps.map jsTrim).filter (fun p => p ≠ [])) := by
  induction ps with
  | nil => intro st cur _; simp [chunkLoop]
  | cons p rest ih =>
    intro st cur hp
    have hrest : ∀ q ∈ rest, jsTrim q ≠ [] → estimateTokenCount (jsTrim q) ≤ maxT := by
      intro q hq
      exact hp q (by simp [hq])
    by_cases h0 : jsTrim p = []
    · rw [show chunkLoop maxT minT markers (p :: rest) st cur =
          chunkLoop maxT minT markers rest st cur by simp [chunkLoop, h0]]
      rw [ih st cur hrest]
      simp [h0]
    · have hple : estimateTokenCount (jsTrim p) ≤ maxT := hp p (by simp) h0
      by_cases h1 : cur ≠ [] ∧ estimateTokenCount cur + estimateTokenCount (jsTrim p) > maxT
      · rw [show chunkLoop maxT minT markers (p :: rest) st cur =
            chunkLoop maxT minT markers rest
              ⟨(createChunk minT markers st.chunks st.chunkId st.position cur st.position).1,
               (createChunk minT markers st.chunks st.chunkId st.position cur st.position).2,
               st.position + estimateTokenCount cur⟩ (jsTrim p) by
          simp [chunkLoop, h0, h1]]
        rw [ih _ _ hrest]
        have hpend : pend (jsTrim p) = [jsTrim p] := by simp [pend, h0]
        rw [hpend, List.append_assoc, createChunk_joinSep_ctx]
        simp [pend, h1.1, h0, List.append_assoc]
      · have h2 : ¬ estimateTokenCount (jsTrim p) > maxT := by omega
        rw [show chunkLoop maxT minT markers (p :: rest) st cur =
            chunkLoop maxT minT markers rest st
              (cur ++ (if cur ≠ [] then nl2 else []) ++ jsTrim p) by
          simp [chunkLoop, h0, h1, h2]]
        rw [ih _ _ hrest]
        by_cases hcur : cur = []
        · simp [hcur, pend, h0]
        · have hfuse := joinSep_fuse (st.chunks.map (fun c => c.text))
            ((rest.map jsTrim).filter (fun q => q ≠ [])) cur (jsTrim p)
          have hne : cur ++ nl2 ++ jsTrim p ≠ [] := by simp [hcur]
          simp only [pend, hcur, if_neg hcur, if_neg hne, if_pos, h0]
          simp only [if_neg hcur] at hfuse ⊢
          simpa [List.append_assoc, h0, hcur] using hfuse

/-- C1 (amended): when no non-empty paragraph's token estimate exceeds
`maxTokens` (so the sentence-splitting path is never taken), the chunk texts
of `chunkText`, joined back with the canonical `'\n\n'` separator, are exactly
the join of the trimmed non-empty paragraph sequence: no paragraph is lost,
duplicated, or altered. -/
theorem C1_paragraph_reconstruction (text : List Char) (opts : ChunkOptions)
    (h : ∀ p ∈ paraSeq text, estimateTokenCount p ≤ opts.maxTokens) :
    joinSep ((chunkText text opts).map (fun c => c.text)) = joinSep (paraSeq text) := by
  have hp : ∀ p ∈ splitBlankLines text, jsTrim p ≠ [] →
      estimateTokenCount (jsTrim p) ≤ opts.maxTokens := by
    intro p hpmem hne
    exact h (jsTrim p) (by
      unfold paraSeq
      rw [List.mem_filter]
      exact ⟨List.mem_map_of_mem jsTrim hpmem, by simpa using hne⟩)
  have hloop := chunkLoop_joinSep opts.maxTokens opts.minTokens
    (extractPageMarkers text) (splitBlankLines text) ⟨[], 0, 0⟩ [] hp
  unfold chunkText
  by_cases hcur : (chunkLoop opts.maxTokens opts.minTokens (extractPageMarkers text)
      (splitBlankLines text) ⟨[], 0, 0⟩ []).2 = []
  · simp only [hcur, ne_eq, not_true_eq_false, if_false]
    have : pend (chunkLoop opts.maxTokens opts.minTokens (extractPageMarkers text)
        (splitBlankLines text) ⟨[], 0, 0⟩ []).2 = [] := by simp [pend, hcur]
    rw [this] at hloop
    simpa [pend, paraSeq] using hloop
  · simp only [ne_eq, hcur, not_false_eq_true, if_true]
    rw [createChunk_joinSep]
    have : pend (chunkLoop opts.maxTokens opts.minTokens (extractPageMarkers text)
        (splitBlankLines text) ⟨[], 0, 0⟩ []).2 =
        [(chunkLoop opts.maxTokens opts.minTokens (extractPageMarkers text)
          (splitBlankLines text) ⟨[], 0, 0⟩ []).2] := by simp [pend, hcur]
    rw [this] at hloop
    simpa [pend, paraSeq] using hloop

/-- C1 fails as stated: for the text `"aa. bb"` with `maxTokens = 1` the
single oversized paragraph is sentence-split and the unterminated tail
`" bb"` is dropped, so the paragraph `"aa. bb"` appears in no chunk at all:
the concatenation does not contain the original paragraph sequence. -/
theorem C1_counterexample_lost_tail :
    (chunkText (chars "aa. bb") { maxTokens := 1 }).map (fun c => c.text) = [chars "aa."] ∧
    paraSeq (chars "aa. bb") = [chars "aa. bb"] ∧
    joinSep ((chunkText (chars "aa. bb") { maxTokens := 1 }).map (fun c => c.text)) ≠
      joinSep (paraSeq (chars "aa. bb")) ∧
    ¬ (chars "aa. bb") <:+: joinSep ((chunkText (chars "aa. bb")
        { maxTokens := 1 }).map (fun c => c.text)) := by
  refine ⟨by decide, by decide, by decide, by decide⟩

/-- Witness for `C1_paragraph_reconstruction` at a concrete input. -/
theorem C1_paragraph_reconstruction_witness :
    (∀ p ∈ paraSeq (chars "Hello there.\n\nA second paragraph."),
        estimateTokenCount p ≤ ({} : ChunkOptions).maxTokens) ∧
    joinSep ((chunkText (chars "Hello there.\n\nA second paragraph.")
        ({} : ChunkOptions)).map (fun c => c.text)) =
      joinSep (paraSeq (chars "Hello there.\n\nA second paragraph.")) :=
  ⟨by decide, C1_paragraph_reconstruction _ _ (by decide)⟩

lemma est_append_sep_le (a b : List Char) :
    estimateTokenCount (a ++ nl2 ++ b) ≤
      estimateTokenCount a + estimateTokenCount b + 1 := by
  unfold estimateTokenCount
  simp only [List.length_append, nl2, List.length_cons, List.length_nil]
  omega

lemma est_le_est_append_sep (a b : List Char) :
    estimateTokenCount a ≤ estimateTokenCount (a ++ nl2 ++ b) := by
  unfold estimateTokenCount
  simp only [List.length_append]
  omega

lemma createChunk_bounded (maxT minT : Nat) (markers : List (Nat × Nat))
    (chunks : List TextChunk) (cid pos : Nat) (content : List Char) (ep : Nat)
    (hlo : minT ≤ estimateTokenCount content)
    (hhi : estimateTokenCount content ≤ maxT + 1)
    (hch : ∀ c ∈ chunks, chunkBounded maxT c) :
    ∀ c ∈ (createChunk minT markers chunks cid pos content ep).1, chunkBounded maxT c := by
  unfold createChunk
  rw [if_neg (by omega)]
  intro c hc
  rcases List.mem_append.mp hc with h | h
  · exact hch c h
  · have h' := List.mem_singleton.mp h
    subst h'
    exact ⟨hhi, rfl⟩

lemma chunkLoop_bounded (maxT minT : Nat) (markers : List (Nat × Nat))
    (ps : List (List Char)) :
    ∀ st cur,
      (∀ p ∈ ps, jsTrim p ≠ [] →
        minT ≤ estimateTokenCount (jsTrim p) ∧ estimateTokenCount (jsTrim p) ≤ maxT) →
      (∀ c ∈ st.chunks, chunkBounded maxT c) →
      (cur = [] ∨ (minT ≤ estimateTokenCount cur ∧ estimateTokenCount cur ≤ maxT + 1)) →
      (∀ c ∈ (chunkLoop maxT minT markers ps st cur).1.chunks, chunkBounded maxT c) ∧
      ((chunkLoop maxT minT markers ps st cur).2 = [] ∨
        (minT ≤ estimateTokenCount (chunkLoop maxT minT markers ps st cur).2 ∧
         estimateTokenCount (chunkLoop maxT minT markers ps st cur).2 ≤ maxT + 1)) := by
  induction ps with
  | nil => intro st cur _ hch hcur; exact ⟨hch, hcur⟩
  | cons p rest ih =>
    intro st cur hp hch hcur
    have hrest : ∀ q ∈ rest, jsTrim q ≠ [] →
        minT ≤ estimateTokenCount (jsTrim q) ∧ estimateTokenCount (jsTrim q) ≤ maxT := by
      intro q hq
      exact hp q (by simp [hq])
    by_cases h0 : jsTrim p = []
    · rw [show chunkLoop maxT minT markers (p :: rest) st cur =
          chunkLoop maxT minT markers rest st cur by simp [chunkLoop, h0]]
      exact ih st cur hrest hch hcur
    · obtain ⟨hplo, hphi⟩ := hp p (by simp) h0
      by_cases h1 : cur ≠ [] ∧ estimateTokenCount cur + estimateTokenCount (jsTrim p) > maxT
      · rw [show chunkLoop maxT minT markers (p :: rest) st cur =
            chunkLoop maxT minT markers rest
              ⟨(createChunk minT markers st.chunks st.chunkId st.position cur st.position).1,
               (createChunk minT markers st.chunks st.chunkId st.position cur st.position).2,
               st.position + estimateTokenCount cur⟩ (jsTrim p) by
          simp [chunkLoop, h0, h1]]
        have hcur' := hcur.resolve_left h1.1
        exact ih _ _ hrest
          (createChunk_bounded maxT minT markers st.chunks st.chunkId st.position cur
            st.position hcur'.1 hcur'.2 hch)
          (Or.inr ⟨hplo, by omega⟩)
      · have h2 : ¬ estimateTokenCount (jsTrim p) > maxT := by omega
        rw [show chunkLoop maxT minT markers (p :: rest) st cur =
            chunkLoop maxT minT markers rest st
              (cur ++ (if cur ≠ [] then nl2 else []) ++ jsTrim p) by
          simp [chunkLoop, h0, h1, h2]]
        by_cases hc0 : cur = []
        · refine ih st _ hrest hch (Or.inr ?_)
          simp only [hc0, ne_eq, not_true_eq_false, if_false, List.nil_append]
          exact ⟨hplo, by omega⟩
        · have hcur' := hcur.resolve_left hc0
          have hsum : estimateTokenCount cur + estimateTokenCount (jsTrim p) ≤ maxT := by
            rcases not_and_or.mp h1 with h | h
            · exact absurd hc0 (by simpa using h)
            · omega
          refine ih st _ hrest hch (Or.inr ?_)
          simp only [ne_eq, hc0, not_false_eq_true, if_true]
          constructor
          · exact le_trans hcur'.1 (est_le_est_append_sep cur (jsTrim p))
          · have := est_append_sep_le cur (jsTrim p)
            omega

/-- C2 (amended): when every non-empty paragraph's estimate lies between
`minTokens` and `maxTokens`, every produced chunk's recorded token count is
the estimate of its text and is at most `maxTokens + 1` — the extra token
over the claimed bound comes from the two-character `'\n\n'` separators,
which the accumulation guard does not count. -/
theorem C2_token_bound (text : List Char) (opts : ChunkOptions)
    (h : ∀ p ∈ paraSeq text,
      opts.minTokens ≤ estimateTokenCount p ∧ estimateTokenCount p ≤ opts.maxTokens) :
    ∀ c ∈ chunkText text opts,
      c.tokenCount ≤ opts.maxTokens + 1 ∧ c.tokenCount = estimateTokenCount c.text := by
  have hp : ∀ p ∈ splitBlankLines text, jsTrim p ≠ [] →
      opts.minTokens ≤ estimateTokenCount (jsTrim p) ∧
      estimateTokenCount (jsTrim p) ≤ opts.maxTokens := by
    intro p hpmem hne
    exact h (jsTrim p) (by
      unfold paraSeq
      rw [List.mem_filter]
      exact ⟨List.mem_map_of_mem jsTrim hpmem, by simpa using hne⟩)
  have hloop := chunkLoop_bounded opts.maxTokens opts.minTokens
    (extractPageMarkers text) (splitBlankLines text) ⟨[], 0, 0⟩ [] hp (by simp) (Or.inl rfl)
  unfold chunkText
  by_cases hcur : (chunkLoop opts.maxTokens opts.minTokens (extractPageMarkers text)
      (splitBlankLines text) ⟨[], 0, 0⟩ []).2 = []
  · simp only [hcur, ne_eq, not_true_eq_false, if_false]
    exact hloop.1
  · simp only [ne_eq, hcur, not_false_eq_true, if_true]
    have hcur' := hloop.2.resolve_left hcur
    exact createChunk_bounded opts.maxTokens opts.minTokens (extractPageMarkers text) _ _ _ _ _
      hcur'.1 hcur'.2 hloop.1

/-- C2 fails as stated: with `maxTokens = 2` the two short paragraphs
`"aaa."` and `"bbb."` pass the accumulation guard (1 + 1 tokens), yet the
flushed chunk text `"aaa.\n\nbbb."` estimates to 3 tokens.  The chunk is not
a single sentence (it splits into two), and each of its sentences alone is
within the bound, so the claimed exception does not apply. -/
theorem C2_counterexample_separator_overflow :
    (chunkText (chars "aaa.\n\nbbb.") { maxTokens := 2 }).map
      (fun c => (c.text, c.tokenCount)) = [(chars "aaa.\n\nbbb.", 3)] ∧
    2 < 3 ∧
    (matchSentences (chars "aaa.\n\nbbb.")).length = 2 ∧
    (∀ s ∈ matchSentences (chars "aaa.\n\nbbb."), estimateTokenCount s ≤ 2) := by
  refine ⟨by decide, by decide, by decide, by decide⟩

/-- Witness for `C2_token_bound` at a concrete input. -/
theorem C2_token_bound_witness :
    (∀ p ∈ paraSeq (chars "Hello there.\n\nA second paragraph."),
      ({ minTokens := 1 } : ChunkOptions).minTokens ≤ estimateTokenCount p ∧
      estimateTokenCount p ≤ ({ minTokens := 1 } : ChunkOptions).maxTokens) ∧
    ∀ c ∈ chunkText (chars "Hello there.\n\nA second paragraph.")
        ({ minTokens := 1 } : ChunkOptions),
      c.tokenCount ≤ ({ minTokens := 1 } : ChunkOptions).maxTokens + 1 ∧
      c.tokenCount = estimateTokenCount c.text :=
  ⟨by decide, C2_token_bound _ _ (by decide)⟩

/-- C3: evaluating the code on the spec scenario.  The text has page markers
for pages 1 and 2 (character positions 0 and 26) and `chunkText` with
`maxTokens = 1000` produces a single chunk, but the chunk's `pageEnd` is 1,
not 2: `createChunk` passes the chunk's start `position` (which is also
accumulated in token units, not characters) as both boundaries of
`findPageBoundaries`. -/
theorem C3_page_range_behavior :
    (chunkText (chars "Page 1\n\nAlice walked in.\n\nPage 2\n\nBob left.")
        ({} : ChunkOptions)).map (fun c => (c.pageStart, c.pageEnd)) =
      [(some 1, some 1)] ∧
    extractPageMarkers (chars "Page 1\n\nAlice walked in.\n\nPage 2\n\nBob left.") =
      [(0, 1), (26, 2)] := by
  refine ⟨by decide, by decide⟩

lemma stripGo_skip (o c : List Char) : ∀ k l, stripGo o c k l = stripGo o c 0 (l.drop k) := by
  intro k
  induction k with
  | zero => intro l; simp
  | succ n ih =>
    intro l
    cases l with
    | nil => rfl
    | cons x rest => simpa [stripGo] using ih rest

lemma prefix_of_append_pat (pat a r : List Char) (hnd : pat.Nodup)
    (h : pat <+: a ++ (pat ++ r)) : pat <+: a ∨ a = [] := by
  by_cases ha : a = []
  · exact Or.inr ha
  · left
    by_cases hlen : pat.length ≤ a.length
    · have := List.prefix_iff_eq_take.mp h
      rw [List.take_append_of_le_length hlen] at this
      rw [this]
      exact List.take_prefix _ _
    · exfalso
      have hlt : a.length < pat.length := by omega
      have hpos : 0 < a.length := List.length_pos.mpr ha
      have hlen2 : pat.length ≤ (a ++ (pat ++ r)).length := by
        simp [List.length_append]
        omega
      have hb1 : a.length < (a ++ (pat ++ r)).length := by
        simp [List.length_append]
        omega
      have hb2 : a.length - a.length < (pat ++ r).length := by
        simp [List.length_append]
        omega
      have hz : (0 : Nat) < pat.length := by omega
      have e1 : pat[a.length] = (a ++ (pat ++ r))[a.length] := h.getElem hlt
      have e2 : (a ++ (pat ++ r))[a.length] = (pat ++ r)[a.length - a.length] :=
        List.getElem_append_right (by omega)
      have e3 : (pat ++ r)[a.length - a.length] = pat[0] := by
        simp only [Nat.sub_self]
        exact List.getElem_append_left (by omega)
      have h0 : pat[a.length] = pat[0] := by
        rw [e1, e2, e3]
      have := (List.Nodup.getElem_inj_iff hnd).mp h0
      omega

lemma findOcc_at_append (pat : List Char) (hnd : pat.Nodup) (hne : pat ≠ []) :
    ∀ a r, (∀ i, ¬ pat.isPrefixOf (a.drop i)) →
      findOcc pat (a ++ (pat ++ r)) = some a.length := by
  intro a
  induction a with
  | nil =>
    intro r _
    cases pat with
    | nil => exact absurd rfl hne
    | cons p pt =>
      have hpre : (p :: pt).isPrefixOf (p :: (pt ++ r)) = true := by
        apply List.isPrefixOf_iff_prefix.mpr
        exact ⟨r, by rw [List.cons_append]⟩
      simp only [List.nil_append, List.cons_append, List.length_nil]
      rw [show findOcc (p :: pt) (p :: (pt ++ r)) =
          if (p :: pt).isPrefixOf (p :: (pt ++ r)) then some 0
          else (findOcc (p :: pt) (pt ++ r)).map (· + 1) from rfl]
      rw [if_pos hpre]
  | cons c a' ih =>
    intro r hno
    rw [List.cons_append]
    unfold findOcc
    rw [if_neg, ih r (fun i => hno (i + 1))]
    · rfl
    · intro hpre
      have := prefix_of_append_pat pat (c :: a') r hnd
        (by rw [← List.append_assoc] at hpre ⊢
            exact List.isPrefixOf_iff_prefix.mp (by simpa using hpre))
      rcases this with h | h
      · exact hno 0 (by simpa using List.isPrefixOf_iff_prefix.mpr h)
      · simp at h

lemma stripGo_removes_gen (openT closeT : List Char)
    (hno : openT ≠ []) (hndo : openT.Nodup) (hnc : closeT ≠ []) (hndc : closeT.Nodup) :
    ∀ a b c, (∀ i, ¬ openT.isPrefixOf (a.drop i)) →
      (∀ i, ¬ closeT.isPrefixOf (b.drop i)) →
      stripGo openT closeT 0 (a ++ (openT ++ (b ++ (closeT ++ c)))) =
        a ++ stripGo openT closeT 0 c := by
  intro a
  induction a with
  | nil =>
    intro b c _ hb
    cases openT with
    | nil => exact absurd rfl hno
    | cons o ot =>
      rw [List.nil_append, List.cons_append]
      rw [show stripGo (o :: ot) closeT 0 (o :: (ot ++ (b ++ (closeT ++ c)))) =
          if (o :: ot).isPrefixOf (o :: (ot ++ (b ++ (closeT ++ c)))) then
            match findOcc closeT ((o :: (ot ++ (b ++ (closeT ++ c)))).drop (o :: ot).length) with
            | some j => stripGo (o :: ot) closeT ((o :: ot).length + j + closeT.length - 1)
                (ot ++ (b ++ (closeT ++ c)))
            | none => o :: (ot ++ (b ++ (closeT ++ c)))
          else o :: stripGo (o :: ot) closeT 0 (ot ++ (b ++ (closeT ++ c))) from rfl]
      rw [if_pos (List.isPrefixOf_iff_prefix.mpr ⟨b ++ (closeT ++ c), by
        rw [List.cons_append]⟩)]
      have hdrop : (o :: (ot ++ (b ++ (closeT ++ c)))).drop (o :: ot).length =
          b ++ (closeT ++ c) := by
        rw [show (o :: (ot ++ (b ++ (closeT ++ c)))) = (o :: ot) ++ (b ++ (closeT ++ c)) by
          rw [List.cons_append]]
        exact List.drop_left _ _
      rw [hdrop, findOcc_at_append closeT hndc hnc b c hb]
      show stripGo (o :: ot) closeT ((o :: ot).length + b.length + closeT.length - 1)
          (ot ++ (b ++ (closeT ++ c))) = [] ++ stripGo (o :: ot) closeT 0 c
      conv_lhs => rw [stripGo_skip]
      have hd2 : List.drop ((o :: ot).length + b.length + closeT.length - 1)
          (ot ++ (b ++ (closeT ++ c))) = c := by
        rw [show ot ++ (b ++ (closeT ++ c)) = ((ot ++ b) ++ closeT) ++ c by
          simp [List.append_assoc]]
        rw [show (o :: ot).length + b.length + closeT.length - 1 =
            ((ot ++ b) ++ closeT).length by
          simp only [List.length_append, List.length_cons]
          omega]
        exact List.drop_left _ _
      rw [hd2, List.nil_append]
  | cons x a' ih =>
    intro b c ha hb
    rw [List.cons_append]
    rw [show stripGo openT closeT 0 (x :: (a' ++ (openT ++ (b ++ (closeT ++ c))))) =
        if openT.isPrefixOf (x :: (a' ++ (openT ++ (b ++ (closeT ++ c))))) then
          match findOcc closeT
              ((x :: (a' ++ (openT ++ (b ++ (closeT ++ c))))).drop openT.length) with
          | some j => stripGo openT closeT (openT.length + j + closeT.length - 1)
              (a' ++ (openT ++ (b ++ (closeT ++ c))))
          | none => x :: (a' ++ (openT ++ (b ++ (closeT ++ c))))
        else x :: stripGo openT closeT 0 (a' ++ (openT ++ (b ++ (closeT ++ c)))) from ?eq]
    case eq =>
      cases openT with
      | nil => exact absurd rfl hno
      | cons o ot => rfl
    rw [if_neg]
    · rw [ih b c (fun i => ha (i + 1)) hb, List.cons_append]
    · intro hpre
      have hp : openT <+: (x :: a') ++ (openT ++ (b ++ (closeT ++ c))) := by
        rw [List.cons_append]
        exact List.isPrefixOf_iff_prefix.mp hpre
      rcases prefix_of_append_pat openT (x :: a') (b ++ (closeT ++ c)) hndo hp with h | h
      · exact absurd (List.isPrefixOf_iff_prefix.mpr h) (by simpa using ha 0)
      · simp at h

lemma stripGo_id_of_no_span (openT closeT : List Char) (hno : openT ≠ []) :
    ∀ s, (∀ i, openT.isPrefixOf (s.drop i) →
        findOcc closeT (s.drop (i + openT.length)) = none) →
      stripGo openT closeT 0 s = s := by
  intro s
  induction s with
  | nil => intro _; rfl
  | cons c rest ih =>
    intro h
    rw [show stripGo openT closeT 0 (c :: rest) =
        if openT.isPrefixOf (c :: rest) then
          match findOcc closeT ((c :: rest).drop openT.length) with
          | some j => stripGo openT closeT (openT.length + j + closeT.length - 1) rest
          | none => c :: rest
        else c :: stripGo openT closeT 0 rest from ?eq]
    case eq =>
      cases openT with
      | nil => exact absurd rfl hno
      | cons o ot => rfl
    by_cases hp : openT.isPrefixOf (c :: rest) = true
    · rw [if_pos hp]
      have := h 0 (by simpa using hp)
      rw [show (c :: rest).drop (0 + openT.length) = (c :: rest).drop openT.length by
        rw [Nat.zero_add]] at this
      rw [this]
    · rw [if_neg hp, ih (fun i hi => by
        have := h (i + 1) (by simpa using hi)
        simpa [Nat.add_right_comm] using this)]

lemma no_occ_of_bounded (pat a : List Char) (hne : pat ≠ [])
    (h : ∀ i < a.length, ¬ pat.isPrefixOf (a.drop i)) :
    ∀ i, ¬ pat.isPrefixOf (a.drop i) := by
  intro i hp
  by_cases hi : i < a.length
  · exact h i hi hp
  · rw [List.drop_eq_nil_of_le (by omega)] at hp
    cases pat with
    | nil => exact hne rfl
    | cons p pt => simp [List.isPrefixOf] at hp

lemma no_span_of_bounded (s : List Char)
    (h : ∀ i < s.length, thinkOpen.isPrefixOf (s.drop i) →
      findOcc thinkClose (s.drop (i + thinkOpen.length)) = none) :
    ∀ i, thinkOpen.isPrefixOf (s.drop i) →
      findOcc thinkClose (s.drop (i + thinkOpen.length)) = none := by
  intro i hp
  by_cases hi : i < s.length
  · exact h i hi hp
  · rw [List.drop_eq_nil_of_le (by omega)] at hp
    simp [thinkOpen, chars, List.isPrefixOf] at hp

/-- C7 (amended): both reasoning-strippers delete every
`<think>...</think>` span, including multi-line ones: a span preceded by
open-marker-free text and containing no close marker is removed wholesale and
stripping continues on the remainder.  On input containing no such span,
`removeThinkingContent` is the identity, but `extractFinalAnswer`
additionally applies `.trim()`, so it returns the input trimmed — it is a
no-op only when the input carries no leading or trailing whitespace. -/
theorem C7_reasoning_strip :
    (∀ a b c, (∀ i, ¬ thinkOpen.isPrefixOf (a.drop i)) →
      (∀ i, ¬ thinkClose.isPrefixOf (b.drop i)) →
      removeThinkingContent (a ++ (thinkOpen ++ (b ++ (thinkClose ++ c)))) =
        a ++ stripGo thinkOpen thinkClose 0 c) ∧
    (∀ s, (∀ i, thinkOpen.isPrefixOf (s.drop i) →
        findOcc thinkClose (s.drop (i + thinkOpen.length)) = none) →
      removeThinkingContent s = s) ∧
    (∀ s, (∀ i, thinkOpen.isPrefixOf (s.drop i) →
        findOcc thinkClose (s.drop (i + thinkOpen.length)) = none) →
      extractFinalAnswer s = jsTrim s) := by
  refine ⟨?_, ?_, ?_⟩
  · intro a b c ha hb
    have hne : a ++ (thinkOpen ++ (b ++ (thinkClose ++ c))) ≠ [] := by
      simp [thinkOpen, chars]
    unfold removeThinkingContent
    rw [if_neg hne]
    exact stripGo_removes_gen thinkOpen thinkClose (by decide) (by decide) (by decide)
      (by decide) a b c ha hb
  · intro s h
    unfold removeThinkingContent
    by_cases hs : s = []
    · rw [if_pos hs]
    · rw [if_neg hs]
      exact stripGo_id_of_no_span thinkOpen thinkClose (by decide) s h
  · intro s h
    unfold extractFinalAnswer
    rw [stripGo_id_of_no_span thinkOpen thinkClose (by decide) s h]

/-- C7 fails as stated for `extractFinalAnswer`: the input `" hello "`
contains no reasoning span at all, yet the function is not a no-op on it —
the final `.trim()` strips the surrounding spaces. -/
theorem C7_counterexample_trim :
    (∀ i < (chars " hello ").length, ¬ thinkOpen.isPrefixOf ((chars " hello ").drop i)) ∧
    extractFinalAnswer (chars " hello ") = chars "hello" ∧
    extractFinalAnswer (chars " hello ") ≠ chars " hello " := by
  refine ⟨by decide, by decide, by decide⟩

/-- Witness for `C7_reasoning_strip` at concrete inputs, including a span
containing a newline. -/
theorem C7_reasoning_strip_witness :
    removeThinkingContent (chars "Intro " ++ (thinkOpen ++
        (chars "hidden\nreasoning" ++ (thinkClose ++ chars " done")))) =
      chars "Intro " ++ stripGo thinkOpen thinkClose 0 (chars " done") ∧
    removeThinkingContent (chars "plain text") = chars "plain text" ∧
    extractFinalAnswer (chars "plain text") = jsTrim (chars "plain text") :=
  ⟨C7_reasoning_strip.1 (chars "Intro ") (chars "hidden\nreasoning") (chars " done")
      (no_occ_of_bounded thinkOpen (chars "Intro ") (by decide) (by decide))
      (no_occ_of_bounded thinkClose (chars "hidden\nreasoning") (by decide) (by decide)),
    C7_reasoning_strip.2.1 (chars "plain text")
      (no_span_of_bounded (chars "plain text") (by decide)),
    C7_reasoning_strip.2.2 (chars "plain text")
      (no_span_of_bounded (chars "plain text") (by decide))⟩

/-- C5: evaluating the handler at the failing split.  The frame
`{"response":"hello","done":false}\n` delivered whole forwards exactly
`"hello"`, but delivered split as `{"res` + `ponse":"hello","done":false}\n`
the first event finds no complete object, and — because the early prefix
does not contain the substring `"response"` — the fallback branch forwards
the raw JSON prefix `{"res` as a token before the reassembled frame later
yields `"hello"`. -/
theorem C5_split_frame_behavior :
    chars "\x7b\"res" ++ chars "ponse\":\"hello\",\"done\":false\x7d\n" =
      chars "\x7b\"response\":\"hello\",\"done\":false\x7d\n" ∧
    (runRelay [chars "\x7b\"response\":\"hello\",\"done\":false\x7d\n"]).2 =
      [chars "hello"] ∧
    (runRelay [chars "\x7b\"res", chars "ponse\":\"hello\",\"done\":false\x7d\n"]).2 =
      [chars "\x7b\"res", chars "hello"] := by
  refine ⟨by decide, by decide, by decide⟩

lemma splitGo_skip (pat : List Char) :
    ∀ k acc l, splitGo pat k acc l = splitGo pat 0 acc (l.drop k) := by
  intro k
  induction k with
  | zero => intro acc l; simp
  | succ n ih =>
    intro acc l
    cases l with
    | nil => rfl
    | cons x rest => simpa [splitGo] using ih acc rest

lemma findOcc_none_of_no_occ (pat : List Char) (hne : pat ≠ []) :
    ∀ s, (∀ i, ¬ pat.isPrefixOf (s.drop i)) → findOcc pat s = none := by
  intro s
  induction s with
  | nil =>
    intro _
    unfold findOcc
    rw [if_neg (by simpa [List.isEmpty_iff] using hne)]
  | cons c rest ih =>
    intro h
    unfold findOcc
    rw [if_neg (by simpa using h 0), ih (fun i => by simpa using h (i + 1))]
    rfl

lemma occursIn_false_of_no_occ (pat : List Char) (hne : pat ≠ [])
    (s : List Char) (h : ∀ i, ¬ pat.isPrefixOf (s.drop i)) :
    occursIn pat s = false := by
  unfold occursIn
  rw [findOcc_none_of_no_occ pat hne s h]
  rfl

lemma occursIn_true_at_append (pat : List Char) (hnd : pat.Nodup) (hne : pat ≠ [])
    (u v : List Char) (hu : ∀ i, ¬ pat.isPrefixOf (u.drop i)) :
    occursIn pat (u ++ (pat ++ v)) = true := by
  unfold occursIn
  rw [findOcc_at_append pat hnd hne u v hu]
  rfl

lemma jsSplit_emit (pat : List Char) (hnd : pat.Nodup) (hne : pat ≠ []) :
    ∀ u acc v, (∀ i, ¬ pat.isPrefixOf (u.drop i)) →
      splitGo pat 0 acc (u ++ (pat ++ v)) = (acc.reverse ++ u) :: jsSplit pat v := by
  intro u
  induction u with
  | nil =>
    intro acc v _
    cases pat with
    | nil => exact absurd rfl hne
    | cons p pt =>
      rw [List.nil_append, List.cons_append]
      rw [show splitGo (p :: pt) 0 acc (p :: (pt ++ v)) =
          if (p :: pt).isPrefixOf (p :: (pt ++ v)) then
            acc.reverse :: splitGo (p :: pt) ((p :: pt).length - 1) [] (pt ++ v)
          else splitGo (p :: pt) 0 (p :: acc) (pt ++ v) from rfl]
      rw [if_pos (List.isPrefixOf_iff_prefix.mpr ⟨v, by rw [List.cons_append]⟩)]
      rw [splitGo_skip]
      rw [show ((p :: pt).length - 1 : Nat) = pt.length by simp]
      rw [List.drop_left]
      simp [jsSplit]
  | cons x u' ih =>
    intro acc v hu
    rw [List.cons_append]
    rw [show splitGo pat 0 acc (x :: (u' ++ (pat ++ v))) =
        if pat.isPrefixOf (x :: (u' ++ (pat ++ v))) then
          acc.reverse :: splitGo pat (pat.length - 1) [] (u' ++ (pat ++ v))
        else splitGo pat 0 (x :: acc) (u' ++ (pat ++ v)) from ?eq]
    case eq =>
      cases pat with
      | nil => exact absurd rfl hne
      | cons p pt => rfl
    rw [if_neg]
    · rw [ih (x :: acc) v (fun i => hu (i + 1))]
      simp [List.append_assoc]
    · intro hpre
      have hp : pat <+: (x :: u') ++ (pat ++ v) := by
        rw [List.cons_append]
        exact List.isPrefixOf_iff_prefix.mp hpre
      rcases prefix_of_append_pat pat (x :: u') v hnd hp with h | h
      · exact absurd (List.isPrefixOf_iff_prefix.mpr h) (by simpa using hu 0)
      · simp at h

lemma jsSplit_single (pat : List Char) (hne : pat ≠ []) :
    ∀ s acc, (∀ i, ¬ pat.isPrefixOf (s.drop i)) →
      splitGo pat 0 acc s = [acc.reverse ++ s] := by
  intro s
  induction s with
  | nil => intro acc _; simp [splitGo]
  | cons c rest ih =>
    intro acc h
    rw [show splitGo pat 0 acc (c :: rest) =
        if pat.isPrefixOf (c :: rest) then
          acc.reverse :: splitGo pat (pat.length - 1) [] rest
        else splitGo pat 0 (c :: acc) rest from ?eq]
    case eq =>
      cases pat with
      | nil => exact absurd rfl hne
      | cons p pt => rfl
    rw [if_neg (by simpa using h 0), ih (c :: acc) (fun i => by simpa using h (i + 1))]
    simp

/-- C6 (amended): the per-fragment thinking filter of the streaming relay.
A fragment containing the open marker (with no marker in the text before
it) sets the inside flag and forwards nothing — the text kept before the
marker is suppressed because the flag is already set, and this covers a
fragment containing a complete `open...close` span, which therefore
forwards neither the text before the open marker nor the text after the
close marker and leaves forwarding suppressed.  A fragment containing the
close marker but no open marker clears the flag and forwards exactly the
text between the close marker and any next close marker (the text after
the close, when it is unique), if non-empty.  A marker-free fragment is
forwarded unchanged exactly when the flag is clear and it is non-empty. -/
theorem C6_stream_think_filter :
    (∀ (inside : Bool) (u v : List Char),
      (∀ i, ¬ thinkOpen.isPrefixOf (u.drop i)) →
      (∀ i, ¬ thinkClose.isPrefixOf (u.drop i)) →
      processRespToken inside (u ++ (thinkOpen ++ v)) = (true, none)) ∧
    (∀ (inside : Bool) (u v : List Char),
      occursIn thinkOpen (u ++ (thinkClose ++ v)) = false →
      (∀ i, ¬ thinkClose.isPrefixOf (u.drop i)) →
      (∀ i, ¬ thinkClose.isPrefixOf (v.drop i)) →
      processRespToken inside (u ++ (thinkClose ++ v)) =
        (false, if v ≠ [] then some v else none)) ∧
    (∀ (inside : Bool) (t : List Char),
      occursIn thinkOpen t = false → occursIn thinkClose t = false →
      processRespToken inside t =
        (inside, if inside = false ∧ t ≠ [] then some t else none)) := by
  refine ⟨?_, ?_, ?_⟩
  · intro inside u v hu hc
    unfold processRespToken tagFilter
    rw [occursIn_true_at_append thinkOpen (by decide) (by decide) u v hu]
    simp only [if_true, jsSplit]
    rw [jsSplit_emit thinkOpen (by decide) (by decide) u [] v hu]
    simp only [List.reverse_nil, List.nil_append, List.headD_cons]
    rw [occursIn_false_of_no_occ thinkClose (by decide) u hc]
    simp
  · intro inside u v hopen hu hv
    unfold processRespToken tagFilter
    rw [hopen]
    simp only [Bool.false_eq_true, if_false]
    rw [occursIn_true_at_append thinkClose (by decide) (by decide) u v hu]
    simp only [if_true, jsSplit]
    rw [jsSplit_emit thinkClose (by decide) (by decide) u [] v hu]
    have hsing : jsSplit thinkClose v = [v] := by
      unfold jsSplit
      simpa using jsSplit_single thinkClose (by decide) v [] hv
    rw [hsing]
    simp
  · intro inside t hopen hclose
    unfold processRespToken tagFilter
    rw [hopen]
    simp only [Bool.false_eq_true, if_false]
    rw [hclose]
    simp

/-- C6 fails as stated: the fragment `"A<think>B</think>C"` contains a
complete reasoning span, yet the filter forwards nothing at all — not the
text before the open marker nor the text after the close marker — and
leaves the stream suppressed (flag set), because the open-marker branch
truncates the fragment before the close-marker branch can see the close
marker. -/
theorem C6_counterexample_complete_span :
    occursIn thinkOpen (chars "A<think>B</think>C") = true ∧
    occursIn thinkClose (chars "A<think>B</think>C") = true ∧
    processRespToken false (chars "A<think>B</think>C") = (true, none) := by
  refine ⟨by decide, by decide, by decide⟩

/-- Witness for `C6_stream_think_filter` at concrete fragments. -/
theorem C6_stream_think_filter_witness :
    processRespToken false (chars "pre " ++ (thinkOpen ++ chars " hidden")) = (true, none) ∧
    processRespToken true (chars "tail" ++ (thinkClose ++ chars " after")) =
      (false, some (chars " after")) ∧
    processRespToken false (chars "plain") = (false, some (chars "plain")) :=
  ⟨C6_stream_think_filter.1 false (chars "pre ") (chars " hidden")
      (no_occ_of_bounded thinkOpen (chars "pre ") (by decide) (by decide))
      (no_occ_of_bounded thinkClose (chars "pre ") (by decide) (by decide)),
    (C6_stream_think_filter.2.1 true (chars "tail") (chars " after")
      (by decide)
      (no_occ_of_bounded thinkClose (chars "tail") (by decide) (by decide))
      (no_occ_of_bounded thinkClose (chars " after") (by decide) (by decide))).trans
      (by decide),
    (C6_stream_think_filter.2.2 false (chars "plain") (by decide) (by decide)).trans
      (by decide)⟩

lemma lookupEntry_cons {ε : Type} (k k0 : List Char) (v : ε) (rest : List (List Char × ε)) :
    lookupEntry k ((k0, v) :: rest) = if k0 = k then some v else lookupEntry k rest := rfl

lemma lookupEntry_none_iff {ε : Type} (k : List Char) :
    ∀ acc : List (List Char × ε), lookupEntry k acc = none ↔ k ∉ acc.map Prod.fst := by
  intro acc
  induction acc with
  | nil => simp [lookupEntry]
  | cons q rest ih =>
    obtain ⟨k0, v⟩ := q
    rw [lookupEntry_cons, List.map_cons]
    by_cases hk : k0 = k
    · subst hk
      rw [if_pos rfl]
      constructor
      · intro h
        exact absurd h (by simp)
      · intro h
        exact absurd (List.mem_cons_self _ _) h
    · rw [if_neg hk]
      constructor
      · intro h hmem
        rcases List.mem_cons.mp hmem with h2 | h2
        · exact hk h2.symm
        · exact (ih.mp h) h2
      · intro h
        exact ih.mpr (fun h2 => h (List.mem_cons_of_mem _ h2))

lemma updateEntry_cons {ε : Type} (key k0 : List Char) (f : ε → ε) (v : ε)
    (rest : List (List Char × ε)) :
    updateEntry key f ((k0, v) :: rest) =
      if k0 = key then (k0, f v) :: rest else (k0, v) :: updateEntry key f rest := rfl

lemma lookupEntry_update_self {ε : Type} (k : List Char) (f : ε → ε) :
    ∀ acc, lookupEntry k (updateEntry k f acc) = (lookupEntry k acc).map f := by
  intro acc
  induction acc with
  | nil => rfl
  | cons q rest ih =>
    obtain ⟨k0, v⟩ := q
    by_cases hk : k0 = k
    · subst hk
      rw [updateEntry_cons, if_pos rfl, lookupEntry_cons, if_pos rfl,
        lookupEntry_cons, if_pos rfl]
      rfl
    · rw [updateEntry_cons, if_neg hk, lookupEntry_cons, if_neg hk,
        lookupEntry_cons, if_neg hk, ih]

lemma lookupEntry_update_ne {ε : Type} (k k' : List Char) (hne : k ≠ k') (f : ε → ε) :
    ∀ acc, lookupEntry k (updateEntry k' f acc) = lookupEntry k acc := by
  intro acc
  induction acc with
  | nil => rfl
  | cons q rest ih =>
    obtain ⟨k0, v⟩ := q
    by_cases hk : k0 = k'
    · subst hk
      have hne2 : k0 ≠ k := Ne.symm hne
      rw [updateEntry_cons, if_pos rfl, lookupEntry_cons, if_neg hne2,
        lookupEntry_cons, if_neg hne2]
    · rw [updateEntry_cons, if_neg hk]
      by_cases hk2 : k0 = k
      · rw [lookupEntry_cons, if_pos hk2, lookupEntry_cons, if_pos hk2]
      · rw [lookupEntry_cons, if_neg hk2, lookupEntry_cons, if_neg hk2, ih]

lemma lookupEntry_append_of_none {ε : Type} (k : List Char) (p : List Char × ε) :
    ∀ acc, lookupEntry k acc = none →
      lookupEntry k (acc ++ [p]) = if p.1 = k then some p.2 else none := by
  intro acc
  induction acc with
  | nil =>
    intro _
    obtain ⟨k0, v⟩ := p
    rw [List.nil_append, lookupEntry_cons]
    rfl
  | cons q rest ih =>
    obtain ⟨k0, v⟩ := q
    intro h
    by_cases hk : k0 = k
    · rw [lookupEntry_cons, if_pos hk] at h
      exact absurd h (by simp)
    · rw [lookupEntry_cons, if_neg hk] at h
      rw [List.cons_append, lookupEntry_cons, if_neg hk]
      exact ih h

lemma lookupEntry_append_of_some {ε : Type} (k : List Char) (p : List Char × ε) (e : ε) :
    ∀ acc, lookupEntry k acc = some e → lookupEntry k (acc ++ [p]) = some e := by
  intro acc
  induction acc with
  | nil =>
    intro h
    exact absurd h (by simp [lookupEntry])
  | cons q rest ih =>
    obtain ⟨k0, v⟩ := q
    intro h
    by_cases hk : k0 = k
    · rw [lookupEntry_cons, if_pos hk] at h
      rw [List.cons_append, lookupEntry_cons, if_pos hk]
      exact h
    · rw [lookupEntry_cons, if_neg hk] at h
      rw [List.cons_append, lookupEntry_cons, if_neg hk]
      exact ih h

lemma updateEntry_map_fst {ε : Type} (k : List Char) (f : ε → ε) :
    ∀ acc : List (List Char × ε), (updateEntry k f acc).map Prod.fst = acc.map Prod.fst := by
  intro acc
  induction acc with
  | nil => rfl
  | cons q rest ih =>
    obtain ⟨k0, v⟩ := q
    by_cases hk : k0 = k
    · rw [updateEntry_cons, if_pos hk, List.map_cons, List.map_cons]
    · rw [updateEntry_cons, if_neg hk, List.map_cons, List.map_cons, ih]

lemma updateEntry_mem {ε : Type} (k : List Char) (f : ε → ε) :
    ∀ acc (p : List Char × ε), p ∈ updateEntry k f acc →
      p ∈ acc ∨ ∃ e, (k, e) ∈ acc ∧ p = (k, f e) := by
  intro acc
  induction acc with
  | nil =>
    intro p h
    rw [show updateEntry k f ([] : List (List Char × ε)) = [] from rfl] at h
    exact absurd h (by simp)
  | cons q rest ih =>
    obtain ⟨k0, v⟩ := q
    intro p h
    by_cases hk : k0 = k
    · subst hk
      rw [updateEntry_cons, if_pos rfl] at h
      rcases List.mem_cons.mp h with h | h
      · exact Or.inr ⟨v, List.mem_cons_self _ _, h⟩
      · exact Or.inl (List.mem_cons_of_mem _ h)
    · rw [updateEntry_cons, if_neg hk] at h
      rcases List.mem_cons.mp h with h | h
      · exact Or.inl (h ▸ List.mem_cons_self _ _)
      · rcases ih p h with h2 | ⟨e, he, hp⟩
        · exact Or.inl (List.mem_cons_of_mem _ h2)
        · exact Or.inr ⟨e, List.mem_cons_of_mem _ he, hp⟩

lemma lookupEntry_of_mem_nodup {ε : Type} (k : List Char) (e : ε) :
    ∀ acc : List (List Char × ε), (acc.map Prod.fst).Nodup → (k, e) ∈ acc →
      lookupEntry k acc = some e := by
  intro acc
  induction acc with
  | nil =>
    intro _ h
    exact absurd h (by simp)
  | cons q rest ih =>
    obtain ⟨k0, v⟩ := q
    intro hnd hmem
    rcases List.mem_cons.mp hmem with h | h
    · have hk : k0 = k := (congrArg Prod.fst h).symm
      have hv : v = e := (congrArg Prod.snd h).symm
      rw [lookupEntry_cons, if_pos hk, hv]
    · by_cases hk : k0 = k
      · exfalso
        subst hk
        have hmem2 : k0 ∈ rest.map Prod.fst := List.mem_map.mpr ⟨(k0, e), h, rfl⟩
        rw [List.map_cons, List.nodup_cons] at hnd
        exact hnd.1 hmem2
      · rw [lookupEntry_cons, if_neg hk]
        rw [List.map_cons, List.nodup_cons] at hnd
        exact ih hnd.2 h

lemma aggFold_inv {μ ε : Type} (keyOf : μ → List Char) (valid : μ → Bool)
    (mk : μ → Option Nat → ε) (upd : μ → Option Nat → ε → ε)
    (cnt : ε → Nat) (nameKey : ε → List Char)
    (hmk1 : ∀ m pg, cnt (mk m pg) = 1)
    (hmkk : ∀ m pg, nameKey (mk m pg) = keyOf m)
    (hupd1 : ∀ m pg e, 1 ≤ cnt e → cnt (upd m pg e) = cnt e + 1)
    (hupdk : ∀ m pg e, nameKey (upd m pg e) = nameKey e) :
    ∀ ms acc,
      (∀ p ∈ acc, Prod.fst p = nameKey p.2) →
      ((acc.map Prod.fst).Nodup) →
      (∀ p ∈ acc, 1 ≤ cnt p.2) →
      (∀ p ∈ aggFold keyOf valid mk upd ms acc, Prod.fst p = nameKey p.2) ∧
      (((aggFold keyOf valid mk upd ms acc).map Prod.fst).Nodup) ∧
      (∀ p ∈ aggFold keyOf valid mk upd ms acc, 1 ≤ cnt p.2) ∧
      (∀ k, cntAt cnt k (aggFold keyOf valid mk upd ms acc) =
        cntAt cnt k acc + keyCount keyOf valid k ms) := by
  intro ms
  induction ms with
  | nil =>
    intro acc h1 h2 h3
    exact ⟨h1, h2, h3, fun k => by simp [aggFold, keyCount]⟩
  | cons mp rest ih =>
    obtain ⟨m, pg⟩ := mp
    intro acc h1 h2 h3
    by_cases hv : valid m = true
    · rw [show aggFold keyOf valid mk upd ((m, pg) :: rest) acc =
          (match lookupEntry (keyOf m) acc with
          | some _ => aggFold keyOf valid mk upd rest (updateEntry (keyOf m) (upd m pg) acc)
          | none => aggFold keyOf valid mk upd rest (acc ++ [(keyOf m, mk m pg)]))
          from by rw [show aggFold keyOf valid mk upd ((m, pg) :: rest) acc =
            if valid m then _ else aggFold keyOf valid mk upd rest acc from rfl,
            if_pos hv]]
      cases hlk : lookupEntry (keyOf m) acc with
      | some e0 =>
        have hcnt0 : 1 ≤ cnt e0 := by
          have hm : (keyOf m, e0) ∈ acc := by
            induction acc with
            | nil => simp [lookupEntry] at hlk
            | cons q rest2 ih2 =>
              obtain ⟨k0, v0⟩ := q
              by_cases hk : k0 = keyOf m
              · rw [lookupEntry_cons, if_pos hk] at hlk
                exact hk ▸ (Option.some.injEq .. ▸ hlk) ▸ List.mem_cons_self _ _
              · rw [lookupEntry_cons, if_neg hk] at hlk
                exact List.mem_cons_of_mem _ (ih2 (fun p hp => h1 p (List.mem_cons_of_mem _ hp))
                  (by rw [List.map_cons, List.nodup_cons] at h2; exact h2.2)
                  (fun p hp => h3 p (List.mem_cons_of_mem _ hp)) hlk)
          exact h3 _ hm
        have hstep := ih (updateEntry (keyOf m) (upd m pg) acc)
          (fun p hp => by
            rcases updateEntry_mem (keyOf m) (upd m pg) acc p hp with h | ⟨e, he, hpe⟩
            · exact h1 p h
            · rw [hpe]
              have := h1 (keyOf m, e) he
              simpa [hupdk] using this)
          (by rw [updateEntry_map_fst]; exact h2)
          (fun p hp => by
            rcases updateEntry_mem (keyOf m) (upd m pg) acc p hp with h | ⟨e, he, hpe⟩
            · exact h3 p h
            · rw [hpe]
              have hc := h3 (keyOf m, e) he
              have := hupd1 m pg e hc
              simp only []
              omega)
        refine ⟨hstep.1, hstep.2.1, hstep.2.2.1, fun k => ?_⟩
        rw [hstep.2.2.2 k]
        rw [show keyCount keyOf valid k ((m, pg) :: rest) =
          (if valid m ∧ keyOf m = k then 1 else 0) + keyCount keyOf valid k rest from rfl]
        by_cases hkk : keyOf m = k
        · subst hkk
          have : cntAt cnt (keyOf m) (updateEntry (keyOf m) (upd m pg) acc) =
              cntAt cnt (keyOf m) acc + 1 := by
            unfold cntAt
            rw [lookupEntry_update_self, hlk]
            simp [hupd1 m pg e0 hcnt0]
          rw [this]
          simp [hv]
          omega
        · have : cntAt cnt k (updateEntry (keyOf m) (upd m pg) acc) = cntAt cnt k acc := by
            unfold cntAt
            rw [lookupEntry_update_ne k (keyOf m) (Ne.symm hkk) _ acc]
          rw [this]
          simp [hkk]
      | none =>
        have hnotin : keyOf m ∉ acc.map Prod.fst := (lookupEntry_none_iff _ acc).mp hlk
        have hstep := ih (acc ++ [(keyOf m, mk m pg)])
          (fun p hp => by
            rcases List.mem_append.mp hp with h | h
            · exact h1 p h
            · rw [List.mem_singleton.mp h]
              simp [hmkk])
          (by
            rw [List.map_append]
            simp only [List.map_cons, List.map_nil]
            rw [List.nodup_append]
            refine ⟨h2, List.nodup_singleton _, ?_⟩
            intro x hx hx2
            exact hnotin (by rwa [List.mem_singleton.mp hx2] at hx))
          (fun p hp => by
            rcases List.mem_append.mp hp with h | h
            · exact h3 p h
            · rw [List.mem_singleton.mp h]
              simp [hmk1])
        refine ⟨hstep.1, hstep.2.1, hstep.2.2.1, fun k => ?_⟩
        rw [hstep.2.2.2 k]
        rw [show keyCount keyOf valid k ((m, pg) :: rest) =
          (if valid m ∧ keyOf m = k then 1 else 0) + keyCount keyOf valid k rest from rfl]
        by_cases hkk : keyOf m = k
        · subst hkk
          have e1 : cntAt cnt (keyOf m) (acc ++ [(keyOf m, mk m pg)]) = 1 := by
            unfold cntAt
            rw [lookupEntry_append_of_none _ _ acc hlk]
            simp [hmk1]
          have e2 : cntAt cnt (keyOf m) acc = 0 := by
            unfold cntAt
            rw [hlk]
          rw [e1, e2]
          simp [hv]
        · have e1 : cntAt cnt k (acc ++ [(keyOf m, mk m pg)]) = cntAt cnt k acc := by
            unfold cntAt
            cases hlk2 : lookupEntry k acc with
            | some e => rw [lookupEntry_append_of_some _ _ _ acc hlk2]
            | none =>
              rw [lookupEntry_append_of_none _ _ acc hlk2]
              simp [hkk]
          rw [e1]
          simp [hkk]
    · rw [show aggFold keyOf valid mk upd ((m, pg) :: rest) acc =
          aggFold keyOf valid mk upd rest acc from by
        rw [show aggFold keyOf valid mk upd ((m, pg) :: rest) acc =
          if valid m then (match lookupEntry (keyOf m) acc with
          | some _ => aggFold keyOf valid mk upd rest (updateEntry (keyOf m) (upd m pg) acc)
          | none => aggFold keyOf valid mk upd rest (acc ++ [(keyOf m, mk m pg)]))
          else aggFold keyOf valid mk upd rest acc from rfl, if_neg hv]]
      have hstep := ih acc h1 h2 h3
      refine ⟨hstep.1, hstep.2.1, hstep.2.2.1, fun k => ?_⟩
      rw [hstep.2.2.2 k]
      rw [show keyCount keyOf valid k ((m, pg) :: rest) =
        (if valid m ∧ keyOf m = k then 1 else 0) + keyCount keyOf valid k rest from rfl]
      simp [hv]

lemma insertDesc_perm {ε : Type} (key : ε → Nat) (e : ε) :
    ∀ l, List.Perm (insertDesc key e l) (e :: l) := by
  intro l
  induction l with
  | nil => exact List.Perm.refl _
  | cons x xs ih =>
    rw [show insertDesc key e (x :: xs) =
        if key e > key x then e :: x :: xs else x :: insertDesc key e xs from rfl]
    by_cases h : key e > key x
    · rw [if_pos h]
    · rw [if_neg h]
      exact (ih.cons x).trans (List.Perm.swap e x xs)

lemma sortByDesc_foldl_perm {ε : Type} (key : ε → Nat) :
    ∀ l acc, List.Perm (List.foldl (fun acc e => insertDesc key e acc) acc l) (acc ++ l) := by
  intro l
  induction l with
  | nil => intro acc; simp
  | cons e l' ih =>
    intro acc
    refine ((ih (insertDesc key e acc)).trans ?_)
    refine ((insertDesc_perm key e acc).append_right l').trans ?_
    exact (List.perm_middle).symm

lemma sortByDesc_perm {ε : Type} (key : ε → Nat) (l : List ε) :
    List.Perm (sortByDesc key l) l := by
  simpa using sortByDesc_foldl_perm key l []

lemma agg_sorted_spec {μ ε : Type} (keyOf : μ → List Char) (valid : μ → Bool)
    (mk : μ → Option Nat → ε) (upd : μ → Option Nat → ε → ε)
    (cnt : ε → Nat) (nameKey : ε → List Char)
    (hmk1 : ∀ m pg, cnt (mk m pg) = 1)
    (hmkk : ∀ m pg, nameKey (mk m pg) = keyOf m)
    (hupd1 : ∀ m pg e, 1 ≤ cnt e → cnt (upd m pg e) = cnt e + 1)
    (hupdk : ∀ m pg e, nameKey (upd m pg e) = nameKey e)
    (ms : List (μ × Option Nat)) :
    ((sortByDesc cnt ((aggFold keyOf valid mk upd ms []).map Prod.snd)).map nameKey).Nodup ∧
    ∀ e ∈ sortByDesc cnt ((aggFold keyOf valid mk upd ms []).map Prod.snd),
      cnt e = keyCount keyOf valid (nameKey e) ms := by
  have hinv := aggFold_inv keyOf valid mk upd cnt nameKey hmk1 hmkk hupd1 hupdk ms []
    (by intro p hp; simp at hp) (by simp) (by intro p hp; simp at hp)
  set entries := aggFold keyOf valid mk upd ms [] with hentries
  have hperm : List.Perm (sortByDesc cnt (entries.map Prod.snd)) (entries.map Prod.snd) :=
    sortByDesc_perm cnt _
  have hmapeq : entries.map Prod.fst = (entries.map Prod.snd).map nameKey := by
    rw [List.map_map]
    exact List.map_congr_left (fun p hp => hinv.1 p hp)
  constructor
  · have h1 : ((entries.map Prod.snd).map nameKey).Nodup := by
      rw [← hmapeq]
      exact hinv.2.1
    exact ((hperm.map nameKey).nodup_iff).mpr h1
  · intro e hmem
    have hmem2 : e ∈ entries.map Prod.snd := (hperm.mem_iff).mp hmem
    obtain ⟨p, hp, hpe⟩ := List.mem_map.mp hmem2
    have hkey : p.1 = nameKey e := by rw [← hpe]; exact hinv.1 p hp
    have hlk : lookupEntry (nameKey e) entries = some e := by
      apply lookupEntry_of_mem_nodup
      · exact hinv.2.1
      · rw [← hkey, ← hpe]
        exact hp
    have hc := hinv.2.2.2 (nameKey e)
    unfold cntAt at hc
    rw [hlk] at hc
    simpa [lookupEntry] using hc

/-- C4 (amended): every aggregation merges mentions into one entry per merge
key, and each entry's counter is exactly the number of valid mentions
mapping to its key — but the keys differ: characters merge by
`normalizeCharacterName` (lowercase, collapse whitespace, strip punctuation,
trim), while themes and settings merge only by the lowercased trimmed name,
so theme or setting mentions differing by punctuation or inner whitespace
remain separate entries. -/
theorem C4_entity_merge_keys :
    (∀ chunks : List TextChunk,
      (((aggregateCharacters chunks).1.map
        (fun e => normalizeCharacterName e.name)).Nodup) ∧
      ∀ e ∈ (aggregateCharacters chunks).1,
        e.appearances = keyCount (fun m => normalizeCharacterName m.name)
          (fun m => m.name ≠ []) (normalizeCharacterName e.name) (charMentions chunks)) ∧
    (∀ chunks : List TextChunk,
      ((aggregateThemes chunks).map (fun e => jsTrim (toLowerList e.name))).Nodup ∧
      ∀ e ∈ aggregateThemes chunks,
        e.occurrences = keyCount (fun m => jsTrim (toLowerList m.name))
          (fun m => m.name ≠ []) (jsTrim (toLowerList e.name)) (themeMentions chunks)) ∧
    (∀ chunks : List TextChunk,
      ((aggregateSettings chunks).map (fun e => jsTrim (toLowerList e.location))).Nodup ∧
      ∀ e ∈ aggregateSettings chunks,
        e.occurrences = keyCount (fun m => jsTrim (toLowerList m.location))
          (fun m => m.location ≠ []) (jsTrim (toLowerList e.location))
          (settingMentions chunks)) := by
  refine ⟨?_, ?_, ?_⟩
  · intro chunks
    exact agg_sorted_spec (fun m => normalizeCharacterName m.name) (fun m => m.name ≠ [])
      mkCharEntry updCharEntry (fun e => e.appearances)
      (fun e => normalizeCharacterName e.name)
      (fun m pg => rfl) (fun m pg => rfl)
      (fun m pg e h => by
        have h2 : 1 ≤ e.appearances := h
        simp only [updCharEntry]
        rw [if_neg (by omega)])
      (fun m pg e => rfl) (charMentions chunks)
  · intro chunks
    exact agg_sorted_spec (fun m => jsTrim (toLowerList m.name)) (fun m => m.name ≠ [])
      mkThemeEntry updThemeEntry (fun e => e.occurrences)
      (fun e => jsTrim (toLowerList e.name))
      (fun m pg => rfl) (fun m pg => rfl)
      (fun m pg e h => by
        have h2 : 1 ≤ e.occurrences := h
        simp only [updThemeEntry]
        rw [if_neg (by omega)])
      (fun m pg e => rfl) (themeMentions chunks)
  · intro chunks
    exact agg_sorted_spec (fun m => jsTrim (toLowerList m.location))
      (fun m => m.location ≠ [])
      mkSettingEntry updSettingEntry (fun e => e.occurrences)
      (fun e => jsTrim (toLowerList e.location))
      (fun m pg => rfl) (fun m pg => rfl)
      (fun m pg e h => by
        have h2 : 1 ≤ e.occurrences := h
        simp only [updSettingEntry]
        rw [if_neg (by omega)])
      (fun m pg e => rfl) (settingMentions chunks)

/-- C4 fails as stated for themes (and settings): `"Jane Doe"` and
`"jane, doe"` differ only by case, punctuation and whitespace — their
character-normalizations agree — yet two theme mentions with those names
stay two separate entries with occurrence count 1 each instead of merging
into one entry with summed counts. -/
theorem C4_counterexample_theme_key :
    normalizeCharacterName (chars "Jane Doe") = normalizeCharacterName (chars "jane, doe") ∧
    (aggregateThemes [themeChunk 0 "Jane Doe", themeChunk 1 "jane, doe"]).map
        (fun e => (e.name, e.occurrences)) =
      [(chars "Jane Doe", 1), (chars "jane, doe", 1)] := by
  refine ⟨by decide, by decide⟩

/-- Witness for `C4_entity_merge_keys` at concrete inputs: the two
punctuation-variant character mentions merge into a single entry whose
appearance count is the number of mentions of that key (2). -/
theorem C4_entity_merge_keys_witness :
    (((aggregateCharacters [characterChunk 0 "Jane Doe",
        characterChunk 1 "jane, doe"]).1.map
      (fun e => normalizeCharacterName e.name)).Nodup) ∧
    ({ name := chars "Jane Doe", description := [], role := [], appearances := 2,
       pages := [] } : CharEntry).appearances =
      keyCount (fun m => normalizeCharacterName m.name) (fun m => m.name ≠ [])
        (normalizeCharacterName (chars "Jane Doe"))
        (charMentions [characterChunk 0 "Jane Doe", characterChunk 1 "jane, doe"]) :=
  ⟨(C4_entity_merge_keys.1 [characterChunk 0 "Jane Doe", characterChunk 1 "jane, doe"]).1,
    (C4_entity_merge_keys.1 [characterChunk 0 "Jane Doe", characterChunk 1 "jane, doe"]).2
      { name := chars "Jane Doe", description := [], role := [], appearances := 2,
        pages := [] } (by decide)⟩

lemma analyzeChunksGo_spec (f : TextChunk → Option ChunkAnalysis) (total : Nat) :
    ∀ chunks i,
      (analyzeChunksGo f total i chunks).1 = chunks.filterMap f ∧
      (analyzeChunksGo f total i chunks).2 =
        (List.enumFrom i chunks).filterMap (fun p =>
          match f p.2 with
          | some _ => some
              { current := p.1 + 1, total := total,
                percentage := jsRoundPct (p.1 + 1) total, lastAnalyzed := p.2.id }
          | none => none) := by
  intro chunks
  induction chunks with
  | nil => intro i; exact ⟨rfl, rfl⟩
  | cons c rest ih =>
    intro i
    cases hf : f c with
    | some a =>
      constructor
      · rw [show (analyzeChunksGo f total i (c :: rest)).1 =
            a :: (analyzeChunksGo f total (i + 1) rest).1 by
          simp [analyzeChunksGo, hf]]
        rw [(ih (i + 1)).1]
        simp [List.filterMap_cons, hf]
      · rw [show (analyzeChunksGo f total i (c :: rest)).2 =
            { current := i + 1, total := total, percentage := jsRoundPct (i + 1) total,
              lastAnalyzed := c.id } :: (analyzeChunksGo f total (i + 1) rest).2 by
          simp [analyzeChunksGo, hf]]
        rw [(ih (i + 1)).2]
        rw [show List.enumFrom i (c :: rest) = (i, c) :: List.enumFrom (i + 1) rest from rfl]
        simp [List.filterMap_cons, hf]
    | none =>
      constructor
      · rw [show (analyzeChunksGo f total i (c :: rest)).1 =
            (analyzeChunksGo f total (i + 1) rest).1 by simp [analyzeChunksGo, hf]]
        rw [(ih (i + 1)).1]
        simp [List.filterMap_cons, hf]
      · rw [show (analyzeChunksGo f total i (c :: rest)).2 =
            (analyzeChunksGo f total (i + 1) rest).2 by simp [analyzeChunksGo, hf]]
        rw [(ih (i + 1)).2]
        rw [show List.enumFrom i (c :: rest) = (i, c) :: List.enumFrom (i + 1) rest from rfl]
        simp [List.filterMap_cons, hf]

/-- C8 (amended): `analyzeChunks` processes the chunks strictly in input
order and returns exactly the analyses of the chunks that succeeded, in
order, so the result may be shorter than the input; the progress callback is
invoked once after each *successful* chunk — not after a failed one — with
`current` the successful chunk's 1-based input index and `total` the input
length. -/
theorem C8_analyzeChunks_order_and_skip (f : TextChunk → Option ChunkAnalysis)
    (chunks : List TextChunk) :
    (analyzeChunks f chunks).1 = chunks.filterMap f ∧
    (analyzeChunks f chunks).2 =
      (List.enumFrom 0 chunks).filterMap (fun p =>
        match f p.2 with
        | some _ => some
            { current := p.1 + 1, total := chunks.length,
              percentage := jsRoundPct (p.1 + 1) chunks.length, lastAnalyzed := p.2.id }
        | none => none) :=
  analyzeChunksGo_spec f chunks.length chunks 0

/-- C8 fails as stated on the callback clause: when the only chunk's
analysis throws, the callback is never invoked — there is no `{current,
total}` invocation "after each one" — while the batch continues and returns
the empty list. -/
theorem C8_counterexample_no_callback_on_failure :
    (analyzeChunks (fun _ => none) [blankChunk 0]).1 = [] ∧
    (analyzeChunks (fun _ => none) [blankChunk 0]).2 = [] ∧
    ([blankChunk 0] : List TextChunk).length = 1 := by
  refine ⟨by decide, by decide, by decide⟩

/-- C9: `getAnalysisResults` is total (never throws) and returns the
status-shaped record of the claim: `not_found` when the book is absent; a
progress record with `percentage = round(100 * chunksAnalyzed /
totalChunks)` when pending or in-progress; the error message when failed;
and the full book info, global analysis and timing stats when completed. -/
theorem C9_getResults_shape :
    getAnalysisResults none = AnalysisResults.notFound ∧
    (∀ ba : BookAnalysisRec,
      (ba.analysisStatus.status = chars "pending" ∨
        ba.analysisStatus.status = chars "in-progress") →
      0 < ba.analysisStatus.totalChunks →
      getAnalysisResults (some ba) = AnalysisResults.progressR ba.analysisStatus.status
        ba.analysisStatus.chunksAnalyzed ba.analysisStatus.totalChunks
        (some ((200 * ba.analysisStatus.chunksAnalyzed + ba.analysisStatus.totalChunks) /
          (2 * ba.analysisStatus.totalChunks)))) ∧
    (∀ ba : BookAnalysisRec, ba.analysisStatus.status = chars "failed" →
      getAnalysisResults (some ba) =
        AnalysisResults.failedR (chars "failed") ba.analysisStatus.error) ∧
    (∀ ba : BookAnalysisRec, ba.analysisStatus.status = chars "completed" →
      getAnalysisResults (some ba) = AnalysisResults.completedR (chars "completed")
        ba.bookInfo ba.globalAnalysis ba.analysisStatus.chunksAnalyzed
        ba.analysisStatus.totalChunks ba.analysisStatus.startTime
        ba.analysisStatus.endTime) := by
  refine ⟨rfl, ?_, ?_, ?_⟩
  · intro ba hst ht
    unfold getAnalysisResults
    dsimp only
    rw [if_pos (by rcases hst with h | h <;> simp [h])]
    unfold jsRoundPctOpt jsRoundPct
    rw [if_neg (by omega)]
  · intro ba hst
    unfold getAnalysisResults
    dsimp only
    rw [if_neg (by rw [hst]; decide), if_pos (by rw [hst]), hst]
  · intro ba hst
    unfold getAnalysisResults
    dsimp only
    rw [if_neg (by rw [hst]; decide), if_neg (by rw [hst]; decide), hst]

/-- Witness for `C9_getResults_shape`, including the spec scenario
`chunksAnalyzed = 3, totalChunks = 10` yielding `percentage = 30`. -/
theorem C9_getResults_shape_witness :
    getAnalysisResults (some
      { bookInfo := { id := chars "b", title := chars "t", author := chars "a" },
        globalAnalysis :=
          { characters := [], mainCharacters := [], supportingCharacters := [],
            themes := [], settings := [] },
        analysisStatus :=
          { status := chars "in-progress", chunksAnalyzed := 3, totalChunks := 10,
            startTime := some 0, endTime := none, error := none } }) =
      AnalysisResults.progressR (chars "in-progress") 3 10 (some 30) :=
  (C9_getResults_shape.2.1
    { bookInfo := { id := chars "b", title := chars "t", author := chars "a" },
      globalAnalysis :=
        { characters := [], mainCharacters := [], supportingCharacters := [],
          themes := [], settings := [] },
      analysisStatus :=
        { status := chars "in-progress", chunksAnalyzed := 3, totalChunks := 10,
          startTime := some 0, endTime := none, error := none } }
    (Or.inr (by decide)) (by decide)).trans (by decide)

lemma attachAnalyses_eq : ∀ (cs : List TextChunk) (as : List ChunkAnalysis),
    attachAnalyses cs as =
      (List.zipWith (fun c a => { c with analysis := some a }) cs as) ++
        cs.drop as.length := by
  intro cs
  induction cs with
  | nil => intro as; cases as <;> rfl
  | cons c cs ih =>
    intro as
    cases as with
    | nil => simp [attachAnalyses]
    | cons a as =>
      rw [show attachAnalyses (c :: cs) (a :: as) =
          { c with analysis := some a } :: attachAnalyses cs as from rfl]
      rw [ih as]
      rfl

lemma getD_map_of_lt (g : TextChunk → ChunkAnalysis) :
    ∀ (l : List TextChunk) (j : Nat), j < l.length →
      ∀ d d', (l.map g).getD j d' = g (l.getD j d) := by
  intro l
  induction l with
  | nil => intro j hj; simp at hj
  | cons x xs ih =>
    intro j hj d d'
    cases j with
    | zero => rfl
    | succ n =>
      rw [show ((x :: xs).map g).getD (n + 1) d' = (xs.map g).getD n d' from rfl]
      rw [show (x :: xs).getD (n + 1) d = xs.getD n d from rfl]
      exact ih n (by simpa using hj) d d'

lemma getD_zipWith_of_lt :
    ∀ (l1 : List TextChunk) (l2 : List ChunkAnalysis) (j : Nat),
      j < l1.length → j < l2.length → ∀ d1 d2 d3,
      (List.zipWith (fun c a => { c with analysis := some a }) l1 l2).getD j d3 =
        { l1.getD j d1 with analysis := some (l2.getD j d2) } := by
  intro l1
  induction l1 with
  | nil => intro l2 j hj; simp at hj
  | cons x xs ih =>
    intro l2 j hj1 hj2 d1 d2 d3
    cases l2 with
    | nil => simp at hj2
    | cons y ys =>
      cases j with
      | zero => rfl
      | succ n =>
        rw [show (List.zipWith (fun c a => { c with analysis := some a })
            (x :: xs) (y :: ys)).getD (n + 1) d3 =
            (List.zipWith (fun c a => { c with analysis := some a }) xs ys).getD n d3
          from rfl]
        exact ih ys n (by simpa using hj1) (by simpa using hj2) d1 d2 d3

lemma filterMap_eq_map_of_mem (f : TextChunk → Option ChunkAnalysis)
    (g : TextChunk → ChunkAnalysis) :
    ∀ l : List TextChunk, (∀ c ∈ l, f c = some (g c)) → l.filterMap f = l.map g := by
  intro l
  induction l with
  | nil => intro _; rfl
  | cons c rest ih =>
    intro h
    rw [List.filterMap_cons, h c (List.mem_cons_self _ _), List.map_cons,
      ih (fun x hx => h x (List.mem_cons_of_mem _ hx))]

set_option maxHeartbeats 1000000 in
/-- C10: when the per-chunk analysis of the chunk at index `pre.length`
throws while all other chunks succeed, `analyzeBook`'s positional attach
loop shifts every later analysis one slot left: each chunk from the failed
index up to the second-to-last receives the analysis of the *next* chunk
(its attached `chunkId` differs from the chunk's own id), and the last
chunk keeps `analysis = null`; results are not re-associated by chunk id. -/
theorem C10_positional_misattachment
    (pre post : List TextChunk) (ck : TextChunk)
    (f : TextChunk → Option ChunkAnalysis) (g : TextChunk → ChunkAnalysis)
    (hpre : ∀ c ∈ pre, f c = some (g c)) (hck : f ck = none)
    (hpost : ∀ c ∈ post, f c = some (g c))
    (hg : ∀ c, (g c).chunkId = c.id)
    (hids : ((pre ++ ck :: post).map (fun c => c.id)).Nodup)
    (hclean : ∀ c ∈ pre ++ ck :: post, c.analysis = none)
    (hpost_ne : post ≠ []) :
    (∀ j, pre.length ≤ j → j + 1 < (pre ++ ck :: post).length →
      ((attachAnalyses (pre ++ ck :: post)
          (analyzeChunks f (pre ++ ck :: post)).1).getD j (blankChunk 0)).analysis =
        some (g ((pre ++ ck :: post).getD (j + 1) (blankChunk 0))) ∧
      (g ((pre ++ ck :: post).getD (j + 1) (blankChunk 0))).chunkId ≠
        ((pre ++ ck :: post).getD j (blankChunk 0)).id) ∧
    ((attachAnalyses (pre ++ ck :: post)
        (analyzeChunks f (pre ++ ck :: post)).1).getD
      ((pre ++ ck :: post).length - 1) (blankChunk 0)).analysis = none := by
  have hanal : (analyzeChunks f (pre ++ ck :: post)).1 = pre.map g ++ post.map g := by
    unfold analyzeChunks
    rw [(analyzeChunksGo_spec f (pre ++ ck :: post).length (pre ++ ck :: post) 0).1]
    rw [List.filterMap_append, List.filterMap_cons, hck]
    rw [filterMap_eq_map_of_mem f g pre hpre, filterMap_eq_map_of_mem f g post hpost]
  have hlenpost : 0 < post.length := List.length_pos.mpr hpost_ne
  have hlenc : (pre ++ ck :: post).length = pre.length + post.length + 1 := by
    simp [List.length_append]
    omega
  have hlena : (pre.map g ++ post.map g).length = pre.length + post.length := by
    simp [List.length_append]
  have hattach := attachAnalyses_eq (pre ++ ck :: post) (pre.map g ++ post.map g)
  have hzlen : (List.zipWith (fun c a => { c with analysis := some a })
      (pre ++ ck :: post) (pre.map g ++ post.map g)).length =
      pre.length + post.length := by
    rw [List.length_zipWith, hlenc, hlena]
    omega
  have hchunksD : ∀ j, pre.length ≤ j → j < pre.length + post.length →
      (pre ++ ck :: post).getD (j + 1) (blankChunk 0) =
        post.getD (j - pre.length) (blankChunk 0) := by
    intro j hj1 hj2
    rw [List.getD_append_right _ _ _ _ (by omega)]
    rw [show j + 1 - pre.length = (j - pre.length) + 1 by omega]
    rfl
  constructor
  · intro j hj1 hj2
    rw [hlenc] at hj2
    have hjlt : j < pre.length + post.length := by omega
    constructor
    · rw [hanal, hattach]
      rw [List.getD_append _ _ _ _ (by rw [hzlen]; omega)]
      rw [getD_zipWith_of_lt (pre ++ ck :: post) (pre.map g ++ post.map g) j
        (by rw [hlenc]; omega) (by rw [hlena]; omega) (blankChunk 0)
        (g (blankChunk 0)) (blankChunk 0)]
      rw [show ((pre.map g ++ post.map g).getD j (g (blankChunk 0))) =
          (post.map g).getD (j - pre.length) (g (blankChunk 0)) by
        rw [List.getD_append_right _ _ _ _ (by simpa using hj1)]
        simp]
      rw [getD_map_of_lt g post (j - pre.length) (by omega) (blankChunk 0)]
      rw [hchunksD j hj1 hjlt]
    · rw [hg]
      have hb1 : j + 1 < (pre ++ ck :: post).length := by rw [hlenc]; omega
      have hb2 : j < (pre ++ ck :: post).length := by rw [hlenc]; omega
      have e1 : (pre ++ ck :: post).getD (j + 1) (blankChunk 0) =
          (pre ++ ck :: post)[j + 1] :=
        List.getD_eq_getElem _ _ hb1
      have e2 : (pre ++ ck :: post).getD j (blankChunk 0) = (pre ++ ck :: post)[j] :=
        List.getD_eq_getElem _ _ hb2
      rw [e1, e2]
      intro heq
      have hb3 : j + 1 < ((pre ++ ck :: post).map (fun c => c.id)).length := by
        rw [List.length_map, hlenc]
        omega
      have hb4 : j < ((pre ++ ck :: post).map (fun c => c.id)).length := by
        rw [List.length_map, hlenc]
        omega
      have hm1 : ((pre ++ ck :: post).map (fun c => c.id))[j + 1] =
          ((pre ++ ck :: post).map (fun c => c.id))[j] := by
        simp only [List.getElem_map]
        exact heq
      have := (List.Nodup.getElem_inj_iff hids).mp hm1
      omega
  · rw [hanal, hattach]
    rw [List.getD_append_right _ _ _ _ (by rw [hzlen, hlenc]; omega)]
    have hdlen : 0 < ((pre ++ ck :: post).drop (pre.map g ++ post.map g).length).length := by
      rw [List.length_drop, hlenc, hlena]
      omega
    rw [List.getD_eq_getElem _ _ (by
      rw [List.length_drop, hlenc, hlena, hzlen]
      omega)]
    rw [List.getElem_drop]
    apply hclean
    exact List.getElem_mem _

/-- Witness for `C10_positional_misattachment` at three concrete chunks with
the first one failing. -/
theorem C10_positional_misattachment_witness :
    (((attachAnalyses ([] ++ blankChunk 0 :: [blankChunk 1, blankChunk 2])
        (analyzeChunks failFirst
          ([] ++ blankChunk 0 :: [blankChunk 1, blankChunk 2])).1).getD 0
      (blankChunk 0)).analysis =
      some (idAnalysis (([] ++ blankChunk 0 :: [blankChunk 1, blankChunk 2]).getD 1
        (blankChunk 0))) ∧
      (idAnalysis (([] ++ blankChunk 0 :: [blankChunk 1, blankChunk 2]).getD 1
        (blankChunk 0))).chunkId ≠
        (([] ++ blankChunk 0 :: [blankChunk 1, blankChunk 2]).getD 0 (blankChunk 0)).id) ∧
    ((attachAnalyses ([] ++ blankChunk 0 :: [blankChunk 1, blankChunk 2])
        (analyzeChunks failFirst
          ([] ++ blankChunk 0 :: [blankChunk 1, blankChunk 2])).1).getD
      (([] ++ blankChunk 0 :: [blankChunk 1, blankChunk 2]).length - 1)
      (blankChunk 0)).analysis = none :=
  ⟨(C10_positional_misattachment [] [blankChunk 1, blankChunk 2] (blankChunk 0)
      failFirst idAnalysis (by decide) (by decide) (by decide) (fun c => rfl)
      (by decide) (by decide) (by decide)).1 0 (by decide) (by decide),
    (C10_positional_misattachment [] [blankChunk 1, blankChunk 2] (blankChunk 0)
      failFirst idAnalysis (by decide) (by decide) (by decide) (fun c => rfl)
      (by decide) (by decide) (by decide)).2⟩

end AIMedia